import Mathlib

/-!
# FuzzedDataProvider: a shallow embedding of `fuzzed_data_provider.go`

The provider owns a slice of bytes.  Raw byte and string extraction consume
from the front of the slice; the integral range engine consumes from the back.

Conventions of the embedding:

* a Go `byte` is a `Fin 256`; a Go `[]byte` and a Go `string` are `List Byte`
  (`nil` and the empty slice are both `[]`);
* a Go integer value of any type is the mathematical integer it denotes
  (`Int`), and the conversions `uint64(v)` and `T(x)` are written out
  explicitly as reductions modulo a power of two;
* a run-time panic (explicit `panic`, index or slice bound out of range,
  integer division by zero) is `none`; a normal return is
  `some (value, provider after the call)`;
* the arithmetic of `float32` and `float64` is a parameter (`FloatArith`) of
  the floating-point decodes: what they read from the buffer and how they
  combine the draws is fixed by the code, the rounding of each operation is
  not fixed by the embedding.  Two arithmetics are used to run the decodes on
  concrete inputs: `exactArith` (no rounding) where no operation rounds, and
  `binary64Arith` (rounding to 53 significant bits, nearest-even) for
  `float64` on finite values in the normal range.
-/

namespace Fuzz

/-! ## Data model -/

/-- A Go `byte`. -/
abbrev Byte := Fin 256

/-- The struct `FuzzedDataProvider`: the bytes not consumed yet. -/
structure FuzzedDataProvider where
  data : List Byte
  deriving DecidableEq, Repr

/-- Constructor `NewFuzzedDataProvider(data)`. -/
def NewFuzzedDataProvider (data : List Byte) : FuzzedDataProvider :=
  { data := data }

/-- Method `RemainingBytes()`: `len(fdp.data)`. -/
def RemainingBytes (fdp : FuzzedDataProvider) : Nat :=
  fdp.data.length

/-- Method `advance(n)`: `fdp.data = fdp.data[n:]`.  The slice expression panics
unless `0 <= n <= len(fdp.data)`. -/
def advance (fdp : FuzzedDataProvider) (n : Int) : Option FuzzedDataProvider :=
  if 0 ≤ n ∧ n ≤ (fdp.data.length : Int) then
    some { data := fdp.data.drop n.toNat }
  else
    none

/-! ## Front consumers -/

/-- Method `ConsumeBytes(n)`.  `n` is clamped to the remaining length; a clamped
value of zero returns `nil` at once; otherwise the slice `fdp.data[:n]`
(which panics for a negative `n`) is cloned and the front is advanced. -/
def ConsumeBytes (fdp : FuzzedDataProvider) (n : Int) :
    Option (List Byte × FuzzedDataProvider) :=
  let n := min n (fdp.data.length : Int)
  if n = 0 then
    some ([], fdp)
  else if 0 ≤ n ∧ n ≤ (fdp.data.length : Int) then
    let res := fdp.data.take n.toNat
    (advance fdp n).map (fun fdp1 => (res, fdp1))
  else
    none

/-- Method `ConsumeRemainingBytes()`: `ConsumeBytes(len(fdp.data))`. -/
def ConsumeRemainingBytes (fdp : FuzzedDataProvider) :
    Option (List Byte × FuzzedDataProvider) :=
  ConsumeBytes fdp (fdp.data.length : Int)

/-- Method `ConsumeBytesAsString(n)`: the body of `ConsumeBytes` with the result
converted to a string instead of cloned. -/
def ConsumeBytesAsString (fdp : FuzzedDataProvider) (n : Int) :
    Option (List Byte × FuzzedDataProvider) :=
  let n := min n (fdp.data.length : Int)
  if n = 0 then
    some ([], fdp)
  else if 0 ≤ n ∧ n ≤ (fdp.data.length : Int) then
    let res := fdp.data.take n.toNat
    (advance fdp n).map (fun fdp1 => (res, fdp1))
  else
    none

/-- The escape marker, the byte `'\\'`. -/
def backslash : Byte := 0x5c

/-- The `for` loop of `ConsumeRandomLengthString`.  The counter `i` and the
bound `maxLength` occur only in the test `i < maxLength`, so the loop is
indexed by the number `maxLength - i` of iterations still allowed; `result`
is the string builder.  Each iteration reads `fdp.data[0]` and advances by
one; on a marker followed by at least one more byte it reads and advances
again, and leaves the loop (`break`) when that second byte is not a marker. -/
def randomLengthLoop :
    Nat → FuzzedDataProvider → List Byte → Option (List Byte × FuzzedDataProvider)
  | 0, fdp, result => some (result, fdp)
  | k + 1, fdp, result =>
    if fdp.data.length ≠ 0 then
      match fdp.data[0]?, advance fdp 1 with
      | some next, some fdp1 =>
        if next = backslash ∧ fdp1.data.length ≠ 0 then
          match fdp1.data[0]?, advance fdp1 1 with
          | some next2, some fdp2 =>
            if next2 ≠ backslash then
              some (result, fdp2)
            else
              randomLengthLoop k fdp2 (result ++ [next2])
          | _, _ => none
        else
          randomLengthLoop k fdp1 (result ++ [next])
      | _, _ => none
    else
      some (result, fdp)

/-- Method `ConsumeRandomLengthString(maxLength)`. -/
def ConsumeRandomLengthString (fdp : FuzzedDataProvider) (maxLength : Int) :
    Option (List Byte × FuzzedDataProvider) :=
  randomLengthLoop maxLength.toNat fdp []

/-- Method `ConsumeRemainingRandomLengthString()`. -/
def ConsumeRemainingRandomLengthString (fdp : FuzzedDataProvider) :
    Option (List Byte × FuzzedDataProvider) :=
  ConsumeRandomLengthString fdp (fdp.data.length : Int)

/-! ## Integral types -/

/-- The concrete types admitted by the constraint `Integral`.  The width of
`int` and `uint` depends on the platform: the flag says whether it is 64
bits (otherwise 32). -/
inductive IntegralType where
  | int8 | int16 | int32 | int64
  | uint8 | uint16 | uint32 | uint64
  | int (is64 : Bool)
  | uint (is64 : Bool)
  deriving DecidableEq, Repr

namespace IntegralType

/-- Value of `unsafe.Sizeof(v) * charBit` for a value `v` of the type. -/
def bits : IntegralType → Nat
  | int8 => 8 | int16 => 16 | int32 => 32 | int64 => 64
  | uint8 => 8 | uint16 => 16 | uint32 => 32 | uint64 => 64
  | int b => if b then 64 else 32
  | uint b => if b then 64 else 32

/-- Whether the type is signed. -/
def signed : IntegralType → Bool
  | int8 | int16 | int32 | int64 | int _ => true
  | uint8 | uint16 | uint32 | uint64 | uint _ => false

/-- The least value of the type (`math.MinInt8`, ..., `0`). -/
def minValue (T : IntegralType) : Int :=
  if T.signed then -(2 : Int) ^ (T.bits - 1) else 0

/-- The greatest value of the type (`math.MaxInt8`, ..., `math.MaxUint64`). -/
def maxValue (T : IntegralType) : Int :=
  if T.signed then (2 : Int) ^ (T.bits - 1) - 1 else (2 : Int) ^ T.bits - 1

/-- The integer `v` is a value of the type. -/
def InRange (T : IntegralType) (v : Int) : Prop :=
  T.minValue ≤ v ∧ v ≤ T.maxValue

instance (T : IntegralType) (v : Int) : Decidable (T.InRange v) := by
  unfold InRange; infer_instance

/-- The conversion `T(x)` of a `uint64` value `x`: keep the low `bits` bits
and read them in two's complement when the type is signed. -/
def ofUint64 (T : IntegralType) (x : Nat) : Int :=
  let y := x % 2 ^ T.bits
  if T.signed ∧ 2 ^ (T.bits - 1) ≤ y then (y : Int) - (2 : Int) ^ T.bits else (y : Int)

end IntegralType

/-- Constant `math.MaxUint64`. -/
def maxUint64 : Nat := 2 ^ 64 - 1

/-- The conversion `uint64(v)` of an integer value of any integral type:
sign extension (or zero extension) to 64 bits, that is, `v` modulo `2^64`. -/
def toUint64 (v : Int) : Nat :=
  (v % (2 : Int) ^ 64).toNat

/-- Constant `charBit`. -/
def charBit : Nat := 8

/-! ## Integral range engine -/

/-- The `for` loop of `consumeIntegralInRange`, by recursion on `remBytes`
(the conjunct `remBytes != 0` of the loop test is the first equation).  The
state is `remBytes`, `result` and `offset`; `sizeBits` is
`unsafe.Sizeof(minVal)*charBit` and `r` the range.  `result` is a `uint64`,
so the left shift is reduced modulo `2^64`; `fdp.data[remBytes]` panics when
the index is out of range.  The loop returns the final `remBytes` and
`result`. -/
def integralLoop (sizeBits r : Nat) (data : List Byte) :
    Nat → Nat → Nat → Option (Nat × Nat)
  | 0, result, _ => some (0, result)
  | remBytes + 1, result, offset =>
    if offset < sizeBits ∧ r >>> offset > 0 then
      match data[remBytes]? with
      | some b =>
        integralLoop sizeBits r data remBytes
          (((result <<< charBit) % 2 ^ 64) ||| b.val) (offset + charBit)
      | none => none
    else
      some (remBytes + 1, result)

/-- The generic `consumeIntegralInRange[T]`.  Panics when `minVal > maxVal`;
`r` is the wrapping `uint64` difference; after the loop the slice
`fdp.data[:remBytes]` is taken (it panics when `remBytes` exceeds the
length), the accumulated value is reduced modulo `r + 1` (a `uint64` sum;
`%` panics on a zero divisor) unless `r` is `math.MaxUint64`, and the
wrapping sum `uint64(minVal) + result` is converted back to `T`. -/
def consumeIntegralInRange (T : IntegralType) (fdp : FuzzedDataProvider)
    (minVal maxVal : Int) : Option (Int × FuzzedDataProvider) :=
  if minVal > maxVal then
    none
  else
    let r := (toUint64 maxVal + 2 ^ 64 - toUint64 minVal) % 2 ^ 64
    match integralLoop T.bits r fdp.data fdp.data.length 0 0 with
    | none => none
    | some (remBytes, result) =>
      if remBytes ≤ fdp.data.length then
        let fdp1 : FuzzedDataProvider := { data := fdp.data.take remBytes }
        let reduced : Option Nat :=
          if r ≠ maxUint64 then
            (if (r + 1) % 2 ^ 64 = 0 then none else some (result % ((r + 1) % 2 ^ 64)))
          else
            some result
        reduced.map (fun res => (T.ofUint64 ((toUint64 minVal + res) % 2 ^ 64), fdp1))
      else
        none

/-! ## Unranged integer decodes -/

/-- Method `ConsumeInt()`: the range is `[math.MinInt, math.MaxInt]` of the platform. -/
def ConsumeInt (is64 : Bool) (fdp : FuzzedDataProvider) : Option (Int × FuzzedDataProvider) :=
  consumeIntegralInRange (.int is64) fdp
    (if is64 then -9223372036854775808 else -2147483648)
    (if is64 then 9223372036854775807 else 2147483647)

/-- Method `ConsumeInt8()`: the range is `[math.MinInt8, math.MaxInt8]`. -/
def ConsumeInt8 (fdp : FuzzedDataProvider) : Option (Int × FuzzedDataProvider) :=
  consumeIntegralInRange .int8 fdp (-128) 127

/-- Method `ConsumeInt16()`: the range is `[math.MinInt16, math.MaxInt16]`. -/
def ConsumeInt16 (fdp : FuzzedDataProvider) : Option (Int × FuzzedDataProvider) :=
  consumeIntegralInRange .int16 fdp (-32768) 32767

/-- Method `ConsumeInt32()`: the range is `[math.MinInt32, math.MaxInt32]`. -/
def ConsumeInt32 (fdp : FuzzedDataProvider) : Option (Int × FuzzedDataProvider) :=
  consumeIntegralInRange .int32 fdp (-2147483648) 2147483647

/-- Method `ConsumeInt64()`: the range is `[math.MinInt64, math.MaxInt64]`. -/
def ConsumeInt64 (fdp : FuzzedDataProvider) : Option (Int × FuzzedDataProvider) :=
  consumeIntegralInRange .int64 fdp (-9223372036854775808) 9223372036854775807

/-- Method `ConsumeUint()`: the range is `[0, math.MaxUint]` of the platform. -/
def ConsumeUint (is64 : Bool) (fdp : FuzzedDataProvider) : Option (Int × FuzzedDataProvider) :=
  consumeIntegralInRange (.uint is64) fdp 0
    (if is64 then 18446744073709551615 else 4294967295)

/-- Method `ConsumeUint8()`: the range is `[0, math.MaxUint8]`. -/
def ConsumeUint8 (fdp : FuzzedDataProvider) : Option (Int × FuzzedDataProvider) :=
  consumeIntegralInRange .uint8 fdp 0 255

/-- Method `ConsumeUint16()`: the range is `[0, math.MaxUint16]`. -/
def ConsumeUint16 (fdp : FuzzedDataProvider) : Option (Int × FuzzedDataProvider) :=
  consumeIntegralInRange .uint16 fdp 0 65535

/-- Method `ConsumeUint32()`: the range is `[0, math.MaxUint32]`. -/
def ConsumeUint32 (fdp : FuzzedDataProvider) : Option (Int × FuzzedDataProvider) :=
  consumeIntegralInRange .uint32 fdp 0 4294967295

/-- Method `ConsumeUint64()`: the range is `[0, math.MaxUint64]`. -/
def ConsumeUint64 (fdp : FuzzedDataProvider) : Option (Int × FuzzedDataProvider) :=
  consumeIntegralInRange .uint64 fdp 0 18446744073709551615

/-! ## Ranged integer decodes -/

/-- Method `ConsumeIntInRange(minVal, maxVal)`. -/
def ConsumeIntInRange (is64 : Bool) (fdp : FuzzedDataProvider) (minVal maxVal : Int) :
    Option (Int × FuzzedDataProvider) :=
  consumeIntegralInRange (.int is64) fdp minVal maxVal

/-- Method `ConsumeInt8InRange(minVal, maxVal)`. -/
def ConsumeInt8InRange (fdp : FuzzedDataProvider) (minVal maxVal : Int) :
    Option (Int × FuzzedDataProvider) :=
  consumeIntegralInRange .int8 fdp minVal maxVal

/-- Method `ConsumeInt16InRange(minVal, maxVal)`. -/
def ConsumeInt16InRange (fdp : FuzzedDataProvider) (minVal maxVal : Int) :
    Option (Int × FuzzedDataProvider) :=
  consumeIntegralInRange .int16 fdp minVal maxVal

/-- Method `ConsumeInt32InRange(minVal, maxVal)`. -/
def ConsumeInt32InRange (fdp : FuzzedDataProvider) (minVal maxVal : Int) :
    Option (Int × FuzzedDataProvider) :=
  consumeIntegralInRange .int32 fdp minVal maxVal

/-- Method `ConsumeInt64InRange(minVal, maxVal)`. -/
def ConsumeInt64InRange (fdp : FuzzedDataProvider) (minVal maxVal : Int) :
    Option (Int × FuzzedDataProvider) :=
  consumeIntegralInRange .int64 fdp minVal maxVal

/-- Method `ConsumeUintInRange(minVal, maxVal)`. -/
def ConsumeUintInRange (is64 : Bool) (fdp : FuzzedDataProvider) (minVal maxVal : Int) :
    Option (Int × FuzzedDataProvider) :=
  consumeIntegralInRange (.uint is64) fdp minVal maxVal

/-- Method `ConsumeUint8InRange(minVal, maxVal)`. -/
def ConsumeUint8InRange (fdp : FuzzedDataProvider) (minVal maxVal : Int) :
    Option (Int × FuzzedDataProvider) :=
  consumeIntegralInRange .uint8 fdp minVal maxVal

/-- Method `ConsumeUint16InRange(minVal, maxVal)`. -/
def ConsumeUint16InRange (fdp : FuzzedDataProvider) (minVal maxVal : Int) :
    Option (Int × FuzzedDataProvider) :=
  consumeIntegralInRange .uint16 fdp minVal maxVal

/-- Method `ConsumeUint32InRange(minVal, maxVal)`. -/
def ConsumeUint32InRange (fdp : FuzzedDataProvider) (minVal maxVal : Int) :
    Option (Int × FuzzedDataProvider) :=
  consumeIntegralInRange .uint32 fdp minVal maxVal

/-- Method `ConsumeUint64InRange(minVal, maxVal)`. -/
def ConsumeUint64InRange (fdp : FuzzedDataProvider) (minVal maxVal : Int) :
    Option (Int × FuzzedDataProvider) :=
  consumeIntegralInRange .uint64 fdp minVal maxVal

/-- The ranged decode of each integral type: `ConsumeXInRange T` is the
method `ConsumeInt8InRange`, ..., `ConsumeUintInRange` whose argument and
result type is `T`. -/
def ConsumeXInRange : IntegralType → FuzzedDataProvider → Int → Int →
    Option (Int × FuzzedDataProvider)
  | .int8 => ConsumeInt8InRange
  | .int16 => ConsumeInt16InRange
  | .int32 => ConsumeInt32InRange
  | .int64 => ConsumeInt64InRange
  | .uint8 => ConsumeUint8InRange
  | .uint16 => ConsumeUint16InRange
  | .uint32 => ConsumeUint32InRange
  | .uint64 => ConsumeUint64InRange
  | .int b => ConsumeIntInRange b
  | .uint b => ConsumeUintInRange b

/-- The unranged decode of each integral type: `ConsumeX T` is the method
`ConsumeInt8`, ..., `ConsumeUint` whose result type is `T`. -/
def ConsumeX : IntegralType → FuzzedDataProvider → Option (Int × FuzzedDataProvider)
  | .int8 => ConsumeInt8
  | .int16 => ConsumeInt16
  | .int32 => ConsumeInt32
  | .int64 => ConsumeInt64
  | .uint8 => ConsumeUint8
  | .uint16 => ConsumeUint16
  | .uint32 => ConsumeUint32
  | .uint64 => ConsumeUint64
  | .int b => ConsumeInt b
  | .uint b => ConsumeUint b

/-! ## Boolean helper -/

/-- Method `ConsumeBool()`: `1&fdp.ConsumeUint8() != 0`. -/
def ConsumeBool (fdp : FuzzedDataProvider) : Option (Bool × FuzzedDataProvider) :=
  (ConsumeUint8 fdp).map (fun p => (decide (1 &&& p.1.toNat ≠ 0), p.2))

/-! ## Floating-point types -/

/-- The concrete types admitted by the constraint `FloatingPoint`. -/
inductive FloatingPointType where
  | float32 | float64
  deriving DecidableEq, Repr

/-- Value of `unsafe.Sizeof(T(0))` for a floating-point type `T`, in bytes. -/
def FloatingPointType.sizeof : FloatingPointType → Nat
  | .float32 => 4
  | .float64 => 8

/-- Value of `unsafe.Sizeof(uint32(0))`. -/
def sizeofUint32 : Nat := 4

/-- The arithmetic of a floating-point type, taken as a parameter of the
floating-point decodes: the carrier `F`, the constants `0`, `2.0`,
`math.MaxFloat` and `-math.MaxFloat` of the type, the operations `+`, `-`,
`*`, `/`, the comparison `<` (`a > b` is `lt b a`) and the conversion `T(x)`
of an unsigned integer.  The decodes below use nothing else of the type, so
what is proved of them for every such arithmetic holds for the arithmetic of
`float32` and of `float64`. -/
structure FloatArith where
  F : Type
  zero : F
  two : F
  maxFloat : F
  negMaxFloat : F
  add : F → F → F
  sub : F → F → F
  mul : F → F → F
  div : F → F → F
  lt : F → F → Bool
  ofUint : Nat → F

/-- The generic `consumeProbability[T]`: a `uint32` draw divided by
`T(math.MaxUint32)` when the type is not wider than `uint32`, otherwise a
`uint64` draw divided by `T(uint64(math.MaxUint64))`. -/
def consumeProbability (T : FloatingPointType) (A : FloatArith) (fdp : FuzzedDataProvider) :
    Option (A.F × FuzzedDataProvider) :=
  if T.sizeof ≤ sizeofUint32 then
    (ConsumeUint32 fdp).map (fun p => (A.div (A.ofUint p.1.toNat) (A.ofUint 4294967295), p.2))
  else
    (ConsumeUint64 fdp).map
      (fun p => (A.div (A.ofUint p.1.toNat) (A.ofUint 18446744073709551615), p.2))

/-- The generic `consumeFloatingPointInRange[T]`.  Panics when
`minVal > maxVal`.  When the range straddles zero and `maxVal > minVal+limMax`
the width `r` is `maxVal/2.0 - minVal/2.0` and one boolean draw decides
whether `r` is added to the base `minVal`; otherwise `r` is `maxVal - minVal`.
The result is the base plus `r` times a probability draw. -/
def consumeFloatingPointInRange (T : FloatingPointType) (A : FloatArith)
    (fdp : FuzzedDataProvider) (minVal maxVal limMax : A.F) :
    Option (A.F × FuzzedDataProvider) :=
  if A.lt maxVal minVal then
    none
  else if A.lt A.zero maxVal ∧ A.lt minVal A.zero ∧ A.lt (A.add minVal limMax) maxVal then
    let r := A.sub (A.div maxVal A.two) (A.div minVal A.two)
    match ConsumeBool fdp with
    | none => none
    | some (b, fdp1) =>
      let result := if b then A.add minVal r else minVal
      (consumeProbability T A fdp1).map (fun p => (A.add result (A.mul r p.1), p.2))
  else
    let r := A.sub maxVal minVal
    (consumeProbability T A fdp).map (fun p => (A.add minVal (A.mul r p.1), p.2))

/-- Method `ConsumeFloat32()`, over the arithmetic `A` of `float32`. -/
def ConsumeFloat32 (A : FloatArith) (fdp : FuzzedDataProvider) :
    Option (A.F × FuzzedDataProvider) :=
  consumeFloatingPointInRange .float32 A fdp A.negMaxFloat A.maxFloat A.maxFloat

/-- Method `ConsumeFloat64()`, over the arithmetic `A` of `float64`. -/
def ConsumeFloat64 (A : FloatArith) (fdp : FuzzedDataProvider) :
    Option (A.F × FuzzedDataProvider) :=
  consumeFloatingPointInRange .float64 A fdp A.negMaxFloat A.maxFloat A.maxFloat

/-- Method `ConsumeFloat32InRange(minVal, maxVal)`, over the arithmetic `A`
of `float32`. -/
def ConsumeFloat32InRange (A : FloatArith) (fdp : FuzzedDataProvider) (minVal maxVal : A.F) :
    Option (A.F × FuzzedDataProvider) :=
  consumeFloatingPointInRange .float32 A fdp minVal maxVal A.maxFloat

/-- Method `ConsumeFloat64InRange(minVal, maxVal)`, over the arithmetic `A`
of `float64`. -/
def ConsumeFloat64InRange (A : FloatArith) (fdp : FuzzedDataProvider) (minVal maxVal : A.F) :
    Option (A.F × FuzzedDataProvider) :=
  consumeFloatingPointInRange .float64 A fdp minVal maxVal A.maxFloat

/-- Method `ConsumeProbabilityFloat32()`, over the arithmetic `A` of
`float32`. -/
def ConsumeProbabilityFloat32 (A : FloatArith) (fdp : FuzzedDataProvider) :
    Option (A.F × FuzzedDataProvider) :=
  consumeProbability .float32 A fdp

/-- Method `ConsumeProbabilityFloat64()`, over the arithmetic `A` of
`float64`. -/
def ConsumeProbabilityFloat64 (A : FloatArith) (fdp : FuzzedDataProvider) :
    Option (A.F × FuzzedDataProvider) :=
  consumeProbability .float64 A fdp

/-- Exact rational arithmetic with a given greatest finite value.  It
agrees with the IEEE 754 arithmetic of a floating-point type on every
operation whose IEEE result is exact (no rounding, no overflow), and is used
to run the floating-point decodes on inputs where that is the case. -/
def exactArith (maxFloat : Rat) : FloatArith where
  F := Rat
  zero := 0
  two := 2
  maxFloat := maxFloat
  negMaxFloat := -maxFloat
  add := fun a b => a + b
  sub := fun a b => a - b
  mul := fun a b => a * b
  div := fun a b => a / b
  lt := fun a b => decide (a < b)
  ofUint := fun n => (n : Rat)

/-- Exact arithmetic with `math.MaxFloat32`, which is `2^128 - 2^104`. -/
def exactFloat32 : FloatArith := exactArith (2 ^ 128 - 2 ^ 104)

/-- Exact arithmetic with `math.MaxFloat64`, which is `2^1024 - 2^971`. -/
def exactFloat64 : FloatArith := exactArith (2 ^ 1024 - 2 ^ 971)

/-- Integer part of the binary logarithm of `x` (and 0 for `x = 0`), by
halving; `fuel` bounds the number of halvings and any `fuel >= x` is
enough. -/
def log2Floor : Nat → Nat → Nat
  | 0, _ => 0
  | fuel + 1, x => if x < 2 then 0 else log2Floor fuel (x / 2) + 1

/-- Rounding of the fraction `num/den` (with `den > 0`) to 53 significant
binary digits, to nearest with ties to even.  This is the rounding of
IEEE 754 binary64 for a result in its normal range; the exponent range is
not bounded here.  With `n/d` the magnitude, `e` is the integer part of its
binary logarithm; the magnitude is scaled by `2^(52-e)` into
`[2^52, 2^53)` and rounded to an integer there. -/
def roundBinary53 (num : Int) (den : Nat) : Rat :=
  if num = 0 then
    0
  else
    let n : Nat := num.natAbs
    let d : Nat := den
    let e0 : Int := (log2Floor n n : Int) - (log2Floor d d : Int)
    let e : Int := if n * 2 ^ (-e0).toNat < d * 2 ^ e0.toNat then e0 - 1 else e0
    let sh : Int := 52 - e
    let scaledNum : Nat := n * 2 ^ sh.toNat
    let scaledDen : Nat := d * 2 ^ (-sh).toNat
    let q0 : Nat := scaledNum / scaledDen
    let rem : Nat := scaledNum % scaledDen
    let m : Nat :=
      if 2 * rem > scaledDen ∨ (2 * rem = scaledDen ∧ q0 % 2 = 1) then q0 + 1 else q0
    let mag : Rat := mkRat ((m * 2 ^ (-sh).toNat : Nat) : Int) (2 ^ sh.toNat)
    if num < 0 then -mag else mag

/-- Arithmetic of `float64` on finite values: each operation forms the exact
result as a fraction and rounds it with `roundBinary53`; the conversion of an
integer rounds it.  It agrees with IEEE 754 binary64 whenever the operands
are finite, a divisor is not zero and the exact result lies in the normal
range (no overflow, no underflow); infinities, NaN and the sign of zero are
not represented. -/
@[reducible]
def binary64Arith : FloatArith where
  F := Rat
  zero := 0
  two := 2
  maxFloat := mkRat (2 ^ 1024 - 2 ^ 971) 1
  negMaxFloat := mkRat (-(2 ^ 1024 - 2 ^ 971)) 1
  add := fun a b => roundBinary53 (a.num * b.den + b.num * a.den) (a.den * b.den)
  sub := fun a b => roundBinary53 (a.num * b.den - b.num * a.den) (a.den * b.den)
  mul := fun a b => roundBinary53 (a.num * b.num) (a.den * b.den)
  div := fun a b => roundBinary53 (a.num * b.den * b.num.sign) (a.den * b.num.natAbs)
  lt := fun a b => decide (a < b)
  ofUint := fun n => roundBinary53 (n : Int) 1

/-- Value of a Go expression of type `int` whose exact value is `x`: integer
arithmetic on `int` wraps around, so the value is `x` reduced modulo `2^64`
(or `2^32`) into the range of `int`. -/
def wrapInt (is64 : Bool) (x : Int) : Int :=
  (IntegralType.int is64).ofUint64 (toUint64 x)

/-! ## Auxiliary notions used to state the properties -/

/-- The positional value in base 256 of a byte sequence read with its first
byte least significant, hence its last byte most significant. -/
def littleEndianValue : List Byte → Nat
  | [] => 0
  | b :: bs => b.val + 256 * littleEndianValue bs

/-- One step of the accumulation of the loop, without the wrap-around. -/
def accStep (acc : Nat) (b : Byte) : Nat := acc * 256 + b.val

/-- The `k` low-order base-256 digits of `x`, least significant first. -/
def leBytes : Nat → Nat → List Byte
  | 0, _ => []
  | k + 1, x => Fin.ofNat (x % 256) :: leBytes k (x / 256)

/-- Escaping of a byte string: every escape marker is doubled. -/
def esc : List Byte → List Byte
  | [] => []
  | b :: bs => if b = backslash then backslash :: backslash :: esc bs else b :: esc bs

/-! ## Lemmas on the integral range engine -/

theorem IntegralType.bits_cases (T : IntegralType) :
    T.bits = 8 ∨ T.bits = 16 ∨ T.bits = 32 ∨ T.bits = 64 := by
  rcases T with _ | _ | _ | _ | _ | _ | _ | _ | b | b <;> (try cases b) <;> simp [IntegralType.bits]

theorem ofUint64_toUint64_add (T : IntegralType) (v : Int) (x : Nat)
    (hv : T.InRange v) (hx : T.InRange (v + x)) :
    T.ofUint64 ((toUint64 v + x) % 2 ^ 64) = v + x := by
  unfold IntegralType.InRange IntegralType.minValue IntegralType.maxValue at hv hx
  unfold IntegralType.ofUint64 toUint64
  rcases T with _ | _ | _ | _ | _ | _ | _ | _ | b | b <;> (try cases b) <;>
    simp [IntegralType.bits, IntegralType.signed] at hv hx ⊢ <;>
    (try split) <;> omega

theorem range_eq (T : IntegralType) (a b : Int) (ha : T.InRange a) (hb : T.InRange b)
    (hle : a ≤ b) :
    (toUint64 b + 2 ^ 64 - toUint64 a) % 2 ^ 64 = (b - a).toNat ∧
      (b - a).toNat < 2 ^ T.bits := by
  unfold IntegralType.InRange IntegralType.minValue IntegralType.maxValue at ha hb
  unfold toUint64
  rcases T with _ | _ | _ | _ | _ | _ | _ | _ | c | c <;> (try cases c) <;>
    simp [IntegralType.bits, IntegralType.signed] at ha hb ⊢ <;> omega

theorem shift_or_byte (result : Nat) (b : Byte) (h : result < 256 ^ 7) :
    ((result <<< charBit) % 2 ^ 64) ||| b.val = result * 256 + b.val := by
  have hb : b.val < 2 ^ 8 := b.isLt
  have h1 : result <<< charBit = 2 ^ 8 * result := by
    rw [Nat.shiftLeft_eq, charBit, Nat.mul_comm]
  have h2 : 2 ^ 8 * result < 2 ^ 64 := by norm_num at h ⊢; omega
  rw [h1, Nat.mod_eq_of_lt h2, ← Nat.mul_add_lt_is_or hb]
  norm_num; omega

theorem loop_test_iff (sizeBits r need i : Nat) (hr : r < 2 ^ sizeBits)
    (hneed : r < 256 ^ need) (hmin : ∀ j, j < need → 256 ^ j ≤ r) :
    (8 * i < sizeBits ∧ r >>> (8 * i) > 0) ↔ i < need := by
  have h256 : (256 : Nat) ^ i = 2 ^ (8 * i) := by
    rw [pow_mul]; norm_num
  rw [Nat.shiftRight_eq_div_pow]
  constructor
  · rintro ⟨_, h2⟩
    by_contra hcon
    have hle : need ≤ i := Nat.le_of_not_lt hcon
    have : (256 : Nat) ^ need ≤ 256 ^ i := Nat.pow_le_pow_right (by norm_num) hle
    have hlt : r < 2 ^ (8 * i) := by omega
    rw [Nat.div_eq_of_lt hlt] at h2
    exact absurd h2 (by decide)
  · intro hi
    have h1 : 2 ^ (8 * i) ≤ r := h256 ▸ hmin i hi
    refine ⟨?_, Nat.div_pos h1 (by positivity)⟩
    have : 2 ^ (8 * i) < 2 ^ sizeBits := lt_of_le_of_lt h1 hr
    exact (Nat.pow_lt_pow_iff_right (by norm_num)).mp this

theorem integralLoop_rev (sizeBits r need : Nat) (hr : r < 2 ^ sizeBits) (h8 : need ≤ 8)
    (hneed : r < 256 ^ need) (hmin : ∀ j, j < need → 256 ^ j ≤ r) :
    ∀ (xs post : List Byte) (result i : Nat), result < 256 ^ i →
      integralLoop sizeBits r (xs.reverse ++ post) xs.length result (8 * i) =
        some (xs.length - min xs.length (need - i),
          (xs.take (need - i)).foldl accStep result) := by
  intro xs
  induction xs with
  | nil => intro post result i _; simp [integralLoop]
  | cons b xs ih =>
    intro post result i hres
    have htest := loop_test_iff sizeBits r need i hr hneed hmin
    by_cases hi : i < need
    · have hget : (((b :: xs).reverse) ++ post)[xs.length]? = some b := by
        rw [List.reverse_cons, List.append_assoc,
          List.getElem?_append_right (by simp)]
        simp
      have hdata : (b :: xs).reverse ++ post = xs.reverse ++ ([b] ++ post) := by simp
      have hlt : result < 256 ^ 7 :=
        lt_of_lt_of_le hres (Nat.pow_le_pow_right (by norm_num) (by omega))
      have hnew : accStep result b < 256 ^ (i + 1) := by
        have hb : b.val < 256 := b.isLt
        unfold accStep
        rw [pow_succ]
        nlinarith
      have hstep := ih ([b] ++ post) (accStep result b) (i + 1) hnew
      have hsub : need - i = (need - (i + 1)) + 1 := by omega
      simp only [List.length_cons, integralLoop, htest.mpr hi, and_self, if_true, hget]
      rw [shift_or_byte result b hlt, hdata]
      have h8i : 8 * i + charBit = 8 * (i + 1) := by simp [charBit]; ring
      rw [h8i]
      unfold accStep at hstep ⊢
      rw [hstep, hsub, List.take_succ_cons, List.foldl_cons]
      congr 2
      omega
    · have hz : need - i = 0 := by omega
      have hnt : ¬ (8 * i < sizeBits ∧ r >>> (8 * i) > 0) := fun h => hi (htest.mp h)
      simp [integralLoop, hnt, hz]

theorem foldl_accStep_reverse (l : List Byte) :
    l.reverse.foldl accStep 0 = littleEndianValue l := by
  induction l with
  | nil => rfl
  | cons b bs ih =>
    simp [List.foldl_append, ih, accStep, littleEndianValue]
    ring

theorem littleEndianValue_lt (l : List Byte) : littleEndianValue l < 256 ^ l.length := by
  induction l with
  | nil => simp [littleEndianValue]
  | cons b bs ih =>
    have hb : b.val < 256 := b.isLt
    simp only [littleEndianValue, List.length_cons, pow_succ]
    omega

/-- The loop of the engine on the whole buffer: it stops after
`min (length data) need` bytes and has accumulated the value of the bytes
it passed, the last byte of the buffer being the most significant. -/
theorem integralLoop_eq (sizeBits r need : Nat) (hr : r < 2 ^ sizeBits) (h8 : need ≤ 8)
    (hneed : r < 256 ^ need) (hmin : ∀ j, j < need → 256 ^ j ≤ r) (data : List Byte) :
    integralLoop sizeBits r data data.length 0 0 =
      some (data.length - min data.length need,
        littleEndianValue (data.drop (data.length - min data.length need))) := by
  have h := integralLoop_rev sizeBits r need hr h8 hneed hmin data.reverse [] 0 0 (by norm_num)
  simp only [List.reverse_reverse, List.append_nil, List.length_reverse, Nat.mul_zero,
    Nat.sub_zero] at h
  have e : data.length - need = data.length - min data.length need := by omega
  rw [h, List.take_reverse, foldl_accStep_reverse, e]

theorem need_le_eight (sizeBits r need : Nat) (hr : r < 2 ^ sizeBits) (hb : sizeBits ≤ 64)
    (hmin : ∀ j, j < need → 256 ^ j ≤ r) : need ≤ 8 := by
  by_contra hcon
  have h1 : 256 ^ 8 ≤ r := hmin 8 (by omega)
  have h2 : 2 ^ sizeBits ≤ 2 ^ 64 := Nat.pow_le_pow_right (by norm_num) hb
  norm_num at h1 h2
  omega

theorem exists_need (r : Nat) (hr : r < 2 ^ 64) :
    ∃ need, r < 256 ^ need ∧ ∀ j, j < need → 256 ^ j ≤ r := by
  have hex : ∃ j, r < 256 ^ j := ⟨8, by norm_num at hr ⊢; exact hr⟩
  classical
  refine ⟨Nat.find hex, Nat.find_spec hex, fun j hj => ?_⟩
  exact Nat.le_of_not_lt (Nat.find_min hex hj)

theorem IntegralType.bits_le (T : IntegralType) : T.bits ≤ 64 := by
  rcases T.bits_cases with h | h | h | h <;> omega

/-- The engine in closed form: for a valid range it returns, and the value
and the remaining data are determined by the number of bytes the range
needs. -/
theorem consumeIntegralInRange_eq (T : IntegralType) (fdp : FuzzedDataProvider)
    (minVal maxVal : Int) (hlo : T.InRange minVal) (hhi : T.InRange maxVal)
    (hle : minVal ≤ maxVal) (need : Nat)
    (hneed : (maxVal - minVal).toNat < 256 ^ need)
    (hleast : ∀ j, j < need → 256 ^ j ≤ (maxVal - minVal).toNat) :
    consumeIntegralInRange T fdp minVal maxVal =
      some (minVal +
          ((littleEndianValue (fdp.data.drop (fdp.data.length - min fdp.data.length need))
            % ((maxVal - minVal).toNat + 1) : Nat) : Int),
        { data := fdp.data.take (fdp.data.length - min fdp.data.length need) }) := by
  obtain ⟨hr_eq, hr_lt⟩ := range_eq T minVal maxVal hlo hhi hle
  have h8 : need ≤ 8 := need_le_eight T.bits _ need hr_lt T.bits_le hleast
  have hloop := integralLoop_eq T.bits _ need hr_lt h8 hneed hleast fdp.data
  set r := (maxVal - minVal).toNat with hr_def
  set k := min fdp.data.length need with hk_def
  set acc := littleEndianValue (fdp.data.drop (fdp.data.length - k)) with hacc_def
  have hacc_lt : acc < 2 ^ 64 := by
    have h1 := littleEndianValue_lt (fdp.data.drop (fdp.data.length - k))
    have h2 : (fdp.data.drop (fdp.data.length - k)).length ≤ 8 := by
      rw [List.length_drop]; omega
    have h3 : 256 ^ (fdp.data.drop (fdp.data.length - k)).length ≤ 256 ^ 8 :=
      Nat.pow_le_pow_right (by norm_num) h2
    exact lt_of_lt_of_le h1 (le_trans h3 (by norm_num))
  have hr64 : r < 2 ^ 64 :=
    lt_of_lt_of_le hr_lt (Nat.pow_le_pow_right (by norm_num) T.bits_le)
  have hmod : acc % (r + 1) ≤ r := Nat.lt_succ_iff.mp (Nat.mod_lt _ (Nat.succ_pos r))
  have hconv : T.ofUint64 ((toUint64 minVal + acc % (r + 1)) % 2 ^ 64) =
      minVal + ((acc % (r + 1) : Nat) : Int) := by
    apply ofUint64_toUint64_add T minVal _ hlo
    have hrint : (r : Int) = maxVal - minVal := by
      rw [hr_def]; exact Int.toNat_of_nonneg (by omega)
    have hm : ((acc % (r + 1) : Nat) : Int) ≤ (r : Int) := by exact_mod_cast hmod
    unfold IntegralType.InRange at hlo hhi ⊢
    constructor <;> omega
  unfold consumeIntegralInRange
  rw [if_neg (not_lt.mpr hle)]
  simp only [hr_eq, hloop]
  rw [if_pos (Nat.sub_le _ _)]
  by_cases hmax : r = maxUint64
  · have hself : acc % (r + 1) = acc := by
      apply Nat.mod_eq_of_lt
      rw [hmax]; unfold maxUint64; omega
    rw [hself] at hconv
    rw [if_neg (not_not.mpr hmax), hself, Option.map_some', hconv]
  · have hne : (r + 1) % 2 ^ 64 = r + 1 := by
      apply Nat.mod_eq_of_lt
      unfold maxUint64 at hmax; omega
    rw [if_pos hmax, hne, if_neg (Nat.succ_ne_zero r), Option.map_some', hconv]

/-! ## The result of a ranged decode and its failure -/

theorem ConsumeXInRange_eq (T : IntegralType) :
    ConsumeXInRange T = consumeIntegralInRange T := by
  cases T <;> rfl

/-- For a valid range the engine returns `minVal` plus a natural number not
above the width of the range, and keeps a front part of the buffer. -/
theorem consumeIntegralInRange_some (T : IntegralType) (fdp : FuzzedDataProvider)
    (minVal maxVal : Int) (hlo : T.InRange minVal) (hhi : T.InRange maxVal)
    (hle : minVal ≤ maxVal) :
    ∃ (x k : Nat), (x : Int) ≤ maxVal - minVal ∧ k ≤ fdp.data.length ∧ k ≤ T.bits / 8 ∧
      consumeIntegralInRange T fdp minVal maxVal =
        some (minVal + x, { data := fdp.data.take (fdp.data.length - k) }) := by
  obtain ⟨_, hr_lt⟩ := range_eq T minVal maxVal hlo hhi hle
  have hr64 : (maxVal - minVal).toNat < 2 ^ 64 :=
    lt_of_lt_of_le hr_lt (Nat.pow_le_pow_right (by norm_num) T.bits_le)
  obtain ⟨need, hneed, hleast⟩ := exists_need _ hr64
  refine ⟨_, min fdp.data.length need, ?_, Nat.min_le_left _ _, ?_,
    consumeIntegralInRange_eq T fdp minVal maxVal hlo hhi hle need hneed hleast⟩
  · have h1 : littleEndianValue
        (fdp.data.drop (fdp.data.length - min fdp.data.length need)) %
          ((maxVal - minVal).toNat + 1) ≤ (maxVal - minVal).toNat :=
      Nat.lt_succ_iff.mp (Nat.mod_lt _ (Nat.succ_pos _))
    have h2 : (((maxVal - minVal).toNat : Nat) : Int) = maxVal - minVal :=
      Int.toNat_of_nonneg (by omega)
    omega
  · have hn : need ≤ T.bits / 8 := by
      by_contra hcon
      have h1 : 256 ^ (T.bits / 8) ≤ (maxVal - minVal).toNat := hleast _ (by omega)
      have h2 : (256 : Nat) ^ (T.bits / 8) = 2 ^ T.bits := by
        rcases T.bits_cases with h | h | h | h <;> rw [h] <;> norm_num
      omega
    exact le_trans (Nat.min_le_right _ _) hn

/-- C1: for every integral type, every buffer and every range
`minVal <= maxVal` of values of the type, the ranged decode
`ConsumeXInRange(minVal, maxVal)` returns a value `v` with
`minVal <= v <= maxVal`. -/
theorem ranged_decode_within_range (T : IntegralType) (fdp : FuzzedDataProvider)
    (minVal maxVal : Int) (hlo : T.InRange minVal) (hhi : T.InRange maxVal)
    (hle : minVal ≤ maxVal) :
    ∃ v fdp1, ConsumeXInRange T fdp minVal maxVal = some (v, fdp1) ∧
      minVal ≤ v ∧ v ≤ maxVal := by
  obtain ⟨x, k, hx, _, _, h⟩ := consumeIntegralInRange_some T fdp minVal maxVal hlo hhi hle
  rw [ConsumeXInRange_eq]
  exact ⟨_, _, h, by omega, by omega⟩

theorem ranged_decode_within_range_witness :
    IntegralType.int8.InRange (-128) ∧ IntegralType.int8.InRange 127 ∧ (-128 : Int) ≤ 127 ∧
      ∃ v fdp1, ConsumeXInRange .int8 { data := [0xba, 0xad] } (-128) 127 = some (v, fdp1) ∧
        (-128 : Int) ≤ v ∧ v ≤ 127 :=
  ⟨by decide, by decide, by decide,
    ranged_decode_within_range .int8 { data := [0xba, 0xad] } (-128) 127
      (by decide) (by decide) (by decide)⟩

/-- C2: for every integral type, every buffer (empty or short ones included)
and all values `minVal`, `maxVal` of the type, the ranged decode panics
exactly when `minVal > maxVal`; in particular it never panics on an index,
a slice bound or a zero modulus. -/
theorem ranged_decode_panics_iff (T : IntegralType) (fdp : FuzzedDataProvider)
    (minVal maxVal : Int) (hlo : T.InRange minVal) (hhi : T.InRange maxVal) :
    ConsumeXInRange T fdp minVal maxVal = none ↔ minVal > maxVal := by
  rw [ConsumeXInRange_eq]
  constructor
  · intro hnone
    by_contra hcon
    obtain ⟨x, k, _, _, _, h⟩ :=
      consumeIntegralInRange_some T fdp minVal maxVal hlo hhi (not_lt.mp hcon)
    rw [h] at hnone
    exact absurd hnone (by simp)
  · intro hgt
    unfold consumeIntegralInRange
    rw [if_pos hgt]

theorem ranged_decode_panics_iff_witness :
    IntegralType.int16.InRange 5 ∧ IntegralType.int16.InRange (-3) ∧
      (ConsumeXInRange .int16 { data := [] } 5 (-3) = none ↔ (5 : Int) > -3) :=
  ⟨by decide, by decide,
    ranged_decode_panics_iff .int16 { data := [] } 5 (-3) (by decide) (by decide)⟩

/-! ## Fixed-length extraction -/

theorem ConsumeBytes_eq (fdp : FuzzedDataProvider) (n : Int) (hn : 0 ≤ n) :
    ConsumeBytes fdp n =
      some (fdp.data.take (min n.toNat fdp.data.length),
        { data := fdp.data.drop (min n.toNat fdp.data.length) }) := by
  obtain ⟨m, rfl⟩ := Int.eq_ofNat_of_zero_le hn
  unfold ConsumeBytes advance
  by_cases hz : min (m : Int) (fdp.data.length : Int) = 0
  · have hz2 : min m fdp.data.length = 0 := by omega
    simp [hz, hz2]
  · have h1 : 0 ≤ min (m : Int) (fdp.data.length : Int) ∧
        min (m : Int) (fdp.data.length : Int) ≤ (fdp.data.length : Int) := by omega
    have h2 : (min (m : Int) (fdp.data.length : Int)).toNat = min m fdp.data.length := by omega
    simp only [hz, if_false, h1, and_self, if_true, h2, Option.map_some', Int.toNat_ofNat]

theorem ConsumeBytesAsString_eq (fdp : FuzzedDataProvider) (n : Int) (hn : 0 ≤ n) :
    ConsumeBytesAsString fdp n =
      some (fdp.data.take (min n.toNat fdp.data.length),
        { data := fdp.data.drop (min n.toNat fdp.data.length) }) :=
  ConsumeBytes_eq fdp n hn

/-- C3: for every `n >= 0` and every buffer, `ConsumeBytes(n)` returns the
first `min(n, RemainingBytes())` bytes of the remaining data in order, the
remaining data afterwards is the old data without that front part, and
`RemainingBytes()` has decreased by exactly the length of the result. -/
theorem consume_bytes_takes_front (fdp : FuzzedDataProvider) (n : Int) (hn : 0 ≤ n) :
    ∃ res fdp1, ConsumeBytes fdp n = some (res, fdp1) ∧
      res = fdp.data.take (min n.toNat (RemainingBytes fdp)) ∧
      (res.length : Int) = min n (RemainingBytes fdp : Int) ∧
      fdp.data = res ++ fdp1.data ∧
      RemainingBytes fdp1 + res.length = RemainingBytes fdp := by
  refine ⟨_, _, ConsumeBytes_eq fdp n hn, rfl, ?_, ?_, ?_⟩
  · simp only [RemainingBytes, List.length_take]
    omega
  · simp
  · simp only [RemainingBytes, List.length_take, List.length_drop]
    omega

theorem consume_bytes_takes_front_witness :
    (0 : Int) ≤ 3 ∧
      ∃ res fdp1, ConsumeBytes { data := [0xba, 0xad, 0xf0, 0x0d] } 3 = some (res, fdp1) ∧
        res = ([0xba, 0xad, 0xf0, 0x0d] : List Byte).take
          (min (3 : Int).toNat (RemainingBytes { data := [0xba, 0xad, 0xf0, 0x0d] })) ∧
        (res.length : Int) =
          min 3 (RemainingBytes { data := [0xba, 0xad, 0xf0, 0x0d] } : Int) ∧
        ([0xba, 0xad, 0xf0, 0x0d] : List Byte) = res ++ fdp1.data ∧
        RemainingBytes fdp1 + res.length =
          RemainingBytes { data := [0xba, 0xad, 0xf0, 0x0d] } :=
  ⟨by decide, consume_bytes_takes_front { data := [0xba, 0xad, 0xf0, 0x0d] } 3 (by decide)⟩

/-! ## Steps of the escaped-string loop, and the empty provider -/

theorem advance_one_cons (b : Byte) (tl : List Byte) :
    advance { data := b :: tl } 1 = some { data := tl } := by
  have h : (0 : Int) ≤ 1 ∧ (1 : Int) ≤ ((b :: tl).length : Int) := by
    simp only [List.length_cons]; omega
  unfold advance
  rw [if_pos h]
  rfl

theorem randomLengthLoop_nil (k : Nat) (result : List Byte) :
    randomLengthLoop k { data := [] } result = some (result, { data := [] }) := by
  cases k <;> simp [randomLengthLoop]

theorem randomLengthLoop_plain (k : Nat) (b : Byte) (tl result : List Byte)
    (hb : b ≠ backslash) :
    randomLengthLoop (k + 1) { data := b :: tl } result =
      randomLengthLoop k { data := tl } (result ++ [b]) := by
  simp [randomLengthLoop, advance_one_cons, hb]

theorem randomLengthLoop_lone_marker (k : Nat) (result : List Byte) :
    randomLengthLoop (k + 1) { data := [backslash] } result =
      randomLengthLoop k { data := [] } (result ++ [backslash]) := by
  simp [randomLengthLoop, advance_one_cons]

theorem randomLengthLoop_escaped (k : Nat) (tl result : List Byte) :
    randomLengthLoop (k + 1) { data := backslash :: backslash :: tl } result =
      randomLengthLoop k { data := tl } (result ++ [backslash]) := by
  simp [randomLengthLoop, advance_one_cons]

theorem randomLengthLoop_terminator (k : Nat) (c : Byte) (tl result : List Byte)
    (hc : c ≠ backslash) :
    randomLengthLoop (k + 1) { data := backslash :: c :: tl } result =
      some (result, { data := tl }) := by
  simp [randomLengthLoop, advance_one_cons, hc]

theorem ConsumeX_eq (T : IntegralType) :
    ConsumeX T = fun fdp => consumeIntegralInRange T fdp T.minValue T.maxValue := by
  rcases T with _ | _ | _ | _ | _ | _ | _ | _ | b | b <;> (try cases b) <;> rfl

theorem IntegralType.minValue_le_maxValue (T : IntegralType) : T.minValue ≤ T.maxValue := by
  rcases T with _ | _ | _ | _ | _ | _ | _ | _ | b | b <;> (try cases b) <;> decide

theorem IntegralType.inRange_minValue (T : IntegralType) : T.InRange T.minValue :=
  ⟨le_refl _, T.minValue_le_maxValue⟩

theorem IntegralType.inRange_maxValue (T : IntegralType) : T.InRange T.maxValue :=
  ⟨T.minValue_le_maxValue, le_refl _⟩

theorem consumeIntegralInRange_empty (T : IntegralType) (minVal maxVal : Int)
    (hlo : T.InRange minVal) (hhi : T.InRange maxVal) (hle : minVal ≤ maxVal) :
    consumeIntegralInRange T { data := [] } minVal maxVal = some (minVal, { data := [] }) := by
  obtain ⟨x, k, hx, hk, _, h⟩ :=
    consumeIntegralInRange_some T { data := [] } minVal maxVal hlo hhi hle
  obtain ⟨_, hr_lt⟩ := range_eq T minVal maxVal hlo hhi hle
  have hr64 : (maxVal - minVal).toNat < 2 ^ 64 :=
    lt_of_lt_of_le hr_lt (Nat.pow_le_pow_right (by norm_num) T.bits_le)
  obtain ⟨need, hneed, hleast⟩ := exists_need _ hr64
  rw [consumeIntegralInRange_eq T _ minVal maxVal hlo hhi hle need hneed hleast]
  simp [littleEndianValue]

theorem ConsumeUint8_eq (fdp : FuzzedDataProvider) :
    ConsumeUint8 fdp = consumeIntegralInRange .uint8 fdp 0 255 := rfl

/-- C4: on a provider with no remaining bytes every operation returns its
empty-case value and leaves the provider empty: a ranged integer decode with
`minVal <= maxVal` returns `minVal`, an unranged integer decode returns the
least value of its type, `ConsumeBool` returns `false`, and `ConsumeBytes`,
`ConsumeBytesAsString` (for `n >= 0`) and `ConsumeRandomLengthString` return
the empty sequence; the provider after each call is the same empty provider. -/
theorem empty_provider_defaults (fdp : FuzzedDataProvider) (hempty : RemainingBytes fdp = 0) :
    (∀ (T : IntegralType) (minVal maxVal : Int), T.InRange minVal → T.InRange maxVal →
        minVal ≤ maxVal →
        ConsumeXInRange T fdp minVal maxVal = some (minVal, fdp)) ∧
      (∀ T : IntegralType, ConsumeX T fdp = some (T.minValue, fdp)) ∧
      ConsumeBool fdp = some (false, fdp) ∧
      (∀ n : Int, 0 ≤ n → ConsumeBytes fdp n = some ([], fdp)) ∧
      (∀ n : Int, 0 ≤ n → ConsumeBytesAsString fdp n = some ([], fdp)) ∧
      (∀ maxLength : Int, ConsumeRandomLengthString fdp maxLength = some ([], fdp)) := by
  obtain ⟨data⟩ := fdp
  have hnil : data = [] := List.length_eq_zero.mp hempty
  subst hnil
  refine ⟨?_, ?_, ?_, ?_, ?_, ?_⟩
  · intro T minVal maxVal hlo hhi hle
    rw [ConsumeXInRange_eq]
    exact consumeIntegralInRange_empty T minVal maxVal hlo hhi hle
  · intro T
    rw [ConsumeX_eq]
    exact consumeIntegralInRange_empty T _ _ T.inRange_minValue T.inRange_maxValue
      T.minValue_le_maxValue
  · unfold ConsumeBool
    rw [ConsumeUint8_eq,
      consumeIntegralInRange_empty .uint8 0 255 (by decide) (by decide) (by decide)]
    rfl
  · intro n hn
    rw [ConsumeBytes_eq _ n hn]
    simp
  · intro n hn
    rw [ConsumeBytesAsString_eq _ n hn]
    simp
  · intro maxLength
    exact randomLengthLoop_nil _ _

theorem empty_provider_defaults_witness :
    RemainingBytes { data := [] } = 0 ∧
      ConsumeBool { data := [] } = some (false, { data := [] }) ∧
      ConsumeX .int32 { data := [] } = some (-2147483648, { data := [] }) :=
  ⟨rfl, (empty_provider_defaults { data := [] } rfl).2.2.1,
    (empty_provider_defaults { data := [] } rfl).2.1 .int32⟩

/-! ## The closed form of the ranged decode -/

/-- C5: for every integral type, every range `minVal <= maxVal` and every
buffer `d`, let `r = maxVal - minVal`, `need` the least `j` with
`r < 256^j` and `k = min(len(d), need)`.  The ranged decode removes exactly
the last `k` bytes of `d` and returns `minVal + (acc mod (r+1))`, where
`acc` is the value of those `k` bytes with the last byte of the buffer most
significant; when `r = 2^64 - 1` the reduction is the identity, so `acc` is
used unreduced. -/
theorem ranged_decode_closed_form (T : IntegralType) (d : List Byte)
    (minVal maxVal : Int) (hlo : T.InRange minVal) (hhi : T.InRange maxVal)
    (hle : minVal ≤ maxVal) (need : Nat)
    (hneed : maxVal - minVal < (256 : Int) ^ need)
    (hleast : ∀ j, j < need → ¬ (maxVal - minVal < (256 : Int) ^ j)) :
    ConsumeXInRange T { data := d } minVal maxVal =
      some (minVal +
          (littleEndianValue (d.drop (d.length - min d.length need)) : Int)
            % (maxVal - minVal + 1),
        { data := d.take (d.length - min d.length need) }) ∧
    (maxVal - minVal = 2 ^ 64 - 1 →
      ConsumeXInRange T { data := d } minVal maxVal =
        some (minVal + (littleEndianValue (d.drop (d.length - min d.length need)) : Int),
          { data := d.take (d.length - min d.length need) })) := by
  have hr : (((maxVal - minVal).toNat : Nat) : Int) = maxVal - minVal :=
    Int.toNat_of_nonneg (by omega)
  have hneed1 : (maxVal - minVal).toNat < 256 ^ need := by
    have : (((maxVal - minVal).toNat : Nat) : Int) < ((256 ^ need : Nat) : Int) := by
      rw [hr]; push_cast; exact hneed
    exact_mod_cast this
  have hleast1 : ∀ j, j < need → 256 ^ j ≤ (maxVal - minVal).toNat := by
    intro j hj
    have h1 := hleast j hj
    have : ((256 ^ j : Nat) : Int) ≤ (((maxVal - minVal).toNat : Nat) : Int) := by
      rw [hr]; push_cast; omega
    exact_mod_cast this
  have hmain : ConsumeXInRange T { data := d } minVal maxVal =
      some (minVal +
          (littleEndianValue (d.drop (d.length - min d.length need)) : Int)
            % (maxVal - minVal + 1),
        { data := d.take (d.length - min d.length need) }) := by
    rw [ConsumeXInRange_eq,
      consumeIntegralInRange_eq T _ minVal maxVal hlo hhi hle need hneed1 hleast1]
    simp only [Int.natCast_mod, Nat.cast_add, Nat.cast_one, hr]
  refine ⟨hmain, fun hfull => ?_⟩
  obtain ⟨_, hr_lt⟩ := range_eq T minVal maxVal hlo hhi hle
  have h8 : need ≤ 8 := need_le_eight T.bits _ need hr_lt T.bits_le hleast1
  have hacc := littleEndianValue_lt (d.drop (d.length - min d.length need))
  have hlen : (d.drop (d.length - min d.length need)).length ≤ 8 := by
    rw [List.length_drop]; omega
  have hpow : 256 ^ (d.drop (d.length - min d.length need)).length ≤ 256 ^ 8 :=
    Nat.pow_le_pow_right (by norm_num) hlen
  have hlt : littleEndianValue (d.drop (d.length - min d.length need)) < 2 ^ 64 :=
    lt_of_lt_of_le hacc (le_trans hpow (by norm_num))
  rw [hmain, hfull]
  congr 2
  norm_num at hlt ⊢
  omega

theorem ranged_decode_closed_form_witness :
    IntegralType.int64.InRange (-110) ∧ IntegralType.int64.InRange 871 ∧
      (-110 : Int) ≤ 871 ∧ (871 : Int) - (-110) < (256 : Int) ^ 2 ∧
      (∀ j, j < 2 → ¬ ((871 : Int) - (-110) < (256 : Int) ^ j)) ∧
      ConsumeXInRange .int64 { data := [0xba, 0xad, 0xf0, 0x0d, 0xde, 0xad, 0xbe, 0xef] }
          (-110) 871 =
        some (380, { data := [0xba, 0xad, 0xf0, 0x0d, 0xde, 0xad] }) :=
  ⟨by decide, by decide, by decide, by decide, by decide,
    (ranged_decode_closed_form .int64 [0xba, 0xad, 0xf0, 0x0d, 0xde, 0xad, 0xbe, 0xef]
      (-110) 871 (by decide) (by decide) (by decide) 2 (by decide) (by decide)).1⟩

/-! ## Unranged unsigned decodes -/

/-- The full-range decode of an unsigned type of `w` bytes returns the
positional value of the last `min (length d) w` bytes and removes them. -/
theorem consumeIntegralInRange_full_unsigned (T : IntegralType) (w : Nat) (d : List Byte)
    (hzero : T.InRange 0) (hmax : T.maxValue = (256 : Int) ^ w - 1) :
    consumeIntegralInRange T { data := d } 0 T.maxValue =
      some ((littleEndianValue (d.drop (d.length - min d.length w)) : Int),
        { data := d.take (d.length - min d.length w) }) := by
  have hpos : (0 : Int) < (256 : Int) ^ w := by positivity
  have hr : (T.maxValue - 0).toNat = 256 ^ w - 1 := by
    rw [hmax]
    have h1 : ((256 : Int) ^ w - 1 - 0) = ((256 ^ w - 1 : Nat) : Int) := by
      have : 1 ≤ 256 ^ w := Nat.one_le_pow _ _ (by norm_num)
      push_cast [Nat.cast_sub this]
      ring
    rw [h1, Int.toNat_ofNat]
  have hone : 1 ≤ 256 ^ w := Nat.one_le_pow _ _ (by norm_num)
  have hneed : (T.maxValue - 0).toNat < 256 ^ w := by omega
  have hleast : ∀ j, j < w → 256 ^ j ≤ (T.maxValue - 0).toNat := by
    intro j hj
    have : 256 ^ j < 256 ^ w := Nat.pow_lt_pow_right (by norm_num) hj
    omega
  rw [consumeIntegralInRange_eq T _ 0 T.maxValue hzero T.inRange_maxValue hzero.2 w
    hneed hleast, hr]
  have hacc := littleEndianValue_lt (d.drop (d.length - min d.length w))
  have hlen : (d.drop (d.length - min d.length w)).length ≤ w := by
    rw [List.length_drop]; omega
  have hpow : 256 ^ (d.drop (d.length - min d.length w)).length ≤ 256 ^ w :=
    Nat.pow_le_pow_right (by norm_num) hlen
  have hmod : littleEndianValue (d.drop (d.length - min d.length w)) % (256 ^ w - 1 + 1) =
      littleEndianValue (d.drop (d.length - min d.length w)) :=
    Nat.mod_eq_of_lt (by omega)
  simp only [hmod, zero_add]

theorem ConsumeUint8_positional (d : List Byte) :
    ConsumeUint8 { data := d } =
      some ((littleEndianValue (d.drop (d.length - min d.length 1)) : Int),
        { data := d.take (d.length - min d.length 1) }) :=
  consumeIntegralInRange_full_unsigned .uint8 1 d (by decide) (by decide)

theorem ConsumeUint16_positional (d : List Byte) :
    ConsumeUint16 { data := d } =
      some ((littleEndianValue (d.drop (d.length - min d.length 2)) : Int),
        { data := d.take (d.length - min d.length 2) }) :=
  consumeIntegralInRange_full_unsigned .uint16 2 d (by decide) (by decide)

theorem ConsumeUint32_positional (d : List Byte) :
    ConsumeUint32 { data := d } =
      some ((littleEndianValue (d.drop (d.length - min d.length 4)) : Int),
        { data := d.take (d.length - min d.length 4) }) :=
  consumeIntegralInRange_full_unsigned .uint32 4 d (by decide) (by decide)

theorem ConsumeUint64_positional (d : List Byte) :
    ConsumeUint64 { data := d } =
      some ((littleEndianValue (d.drop (d.length - min d.length 8)) : Int),
        { data := d.take (d.length - min d.length 8) }) :=
  consumeIntegralInRange_full_unsigned .uint64 8 d (by decide) (by decide)

theorem exists_last_four (d : List Byte) (h : 4 ≤ d.length) :
    ∃ pre b0 b1 b2 b3, d = pre ++ [b0, b1, b2, b3] := by
  have hl : 4 ≤ d.reverse.length := by simpa using h
  rcases hd : d.reverse with _ | ⟨b3, _ | ⟨b2, _ | ⟨b1, _ | ⟨b0, rest⟩⟩⟩⟩
  all_goals rw [hd] at hl
  all_goals try (simp at hl; done)
  refine ⟨rest.reverse, b0, b1, b2, b3, ?_⟩
  have := congrArg List.reverse hd
  simpa using this

theorem getD_last_four (pre : List Byte) (b0 b1 b2 b3 : Byte) :
    (pre ++ [b0, b1, b2, b3]).getD ((pre ++ [b0, b1, b2, b3]).length - 1) 0 = b3 ∧
    (pre ++ [b0, b1, b2, b3]).getD ((pre ++ [b0, b1, b2, b3]).length - 2) 0 = b2 ∧
    (pre ++ [b0, b1, b2, b3]).getD ((pre ++ [b0, b1, b2, b3]).length - 3) 0 = b1 ∧
    (pre ++ [b0, b1, b2, b3]).getD ((pre ++ [b0, b1, b2, b3]).length - 4) 0 = b0 := by
  have e1 : (pre ++ [b0, b1, b2, b3]).length - 1 = pre.length + 3 := by simp
  have e2 : (pre ++ [b0, b1, b2, b3]).length - 2 = pre.length + 2 := by simp
  have e3 : (pre ++ [b0, b1, b2, b3]).length - 3 = pre.length + 1 := by simp
  have e4 : (pre ++ [b0, b1, b2, b3]).length - 4 = pre.length + 0 := by simp
  rw [e1, e2, e3, e4]
  simp only [List.getD_eq_getElem?_getD, List.getElem?_append_right (Nat.le_add_right _ _),
    Nat.add_sub_cancel_left]
  simp

/-- C6: on a buffer `d` of length `n >= 4`, `ConsumeUint32()` returns
`d[n-1]*2^24 + d[n-2]*2^16 + d[n-3]*2^8 + d[n-4]` and removes exactly the
last 4 bytes; on a shorter buffer it returns the positional value of all the
remaining bytes (last byte most significant) and leaves the buffer empty.
The same holds for `ConsumeUint8`, `ConsumeUint16`, `ConsumeUint32` and
`ConsumeUint64` with widths 1, 2, 4 and 8, the value being the positional
value of the bytes removed. -/
theorem unsigned_decode_positional (d : List Byte) :
    (4 ≤ d.length →
      ConsumeUint32 { data := d } =
        some (((d.getD (d.length - 1) 0).val : Int) * 2 ^ 24 +
            ((d.getD (d.length - 2) 0).val : Int) * 2 ^ 16 +
            ((d.getD (d.length - 3) 0).val : Int) * 2 ^ 8 +
            ((d.getD (d.length - 4) 0).val : Int),
          { data := d.take (d.length - 4) })) ∧
    (d.length < 4 →
      ConsumeUint32 { data := d } = some ((littleEndianValue d : Int), { data := [] })) ∧
    (1 ≤ d.length →
      ConsumeUint8 { data := d } =
        some ((littleEndianValue (d.drop (d.length - 1)) : Int),
          { data := d.take (d.length - 1) })) ∧
    (d.length < 1 →
      ConsumeUint8 { data := d } = some ((littleEndianValue d : Int), { data := [] })) ∧
    (2 ≤ d.length →
      ConsumeUint16 { data := d } =
        some ((littleEndianValue (d.drop (d.length - 2)) : Int),
          { data := d.take (d.length - 2) })) ∧
    (d.length < 2 →
      ConsumeUint16 { data := d } = some ((littleEndianValue d : Int), { data := [] })) ∧
    (4 ≤ d.length →
      ConsumeUint32 { data := d } =
        some ((littleEndianValue (d.drop (d.length - 4)) : Int),
          { data := d.take (d.length - 4) })) ∧
    (8 ≤ d.length →
      ConsumeUint64 { data := d } =
        some ((littleEndianValue (d.drop (d.length - 8)) : Int),
          { data := d.take (d.length - 8) })) ∧
    (d.length < 8 →
      ConsumeUint64 { data := d } = some ((littleEndianValue d : Int), { data := [] })) := by
  have long : ∀ w, w ≤ d.length → d.length - min d.length w = d.length - w := by
    intro w hw; omega
  have short : ∀ w, d.length < w → d.length - min d.length w = 0 := by
    intro w hw; omega
  refine ⟨?_, ?_, ?_, ?_, ?_, ?_, ?_, ?_, ?_⟩
  · intro h
    obtain ⟨pre, b0, b1, b2, b3, rfl⟩ := exists_last_four d h
    obtain ⟨g3, g2, g1, g0⟩ := getD_last_four pre b0 b1 b2 b3
    rw [ConsumeUint32_positional, long 4 h, g3, g2, g1, g0]
    simp [littleEndianValue]
    ring
  · intro h
    rw [ConsumeUint32_positional, short 4 h]
    simp
  · intro h
    rw [ConsumeUint8_positional, long 1 h]
  · intro h
    rw [ConsumeUint8_positional, short 1 h]
    simp
  · intro h
    rw [ConsumeUint16_positional, long 2 h]
  · intro h
    rw [ConsumeUint16_positional, short 2 h]
    simp
  · intro h
    rw [ConsumeUint32_positional, long 4 h]
  · intro h
    rw [ConsumeUint64_positional, long 8 h]
  · intro h
    rw [ConsumeUint64_positional, short 8 h]
    simp

theorem unsigned_decode_positional_witness :
    4 ≤ ([0xba, 0xad, 0xf0, 0x0d, 0xde, 0xad, 0xbe, 0xef] : List Byte).length ∧
      ConsumeUint32 { data := [0xba, 0xad, 0xf0, 0x0d, 0xde, 0xad, 0xbe, 0xef] } =
        some (0xefbeadde, { data := [0xba, 0xad, 0xf0, 0x0d] }) :=
  ⟨by decide,
    (unsigned_decode_positional [0xba, 0xad, 0xf0, 0x0d, 0xde, 0xad, 0xbe, 0xef]).1
      (by decide)⟩

/-! ## The boolean decode -/

theorem ConsumeBool_concat (pre : List Byte) (b : Byte) :
    ConsumeBool { data := pre ++ [b] } = some (decide (b.val % 2 = 1), { data := pre }) := by
  unfold ConsumeBool
  rw [ConsumeUint8_positional]
  have hk : (pre ++ [b]).length - min (pre ++ [b]).length 1 = pre.length := by
    simp only [List.length_append, List.length_singleton]; omega
  rw [hk]
  simp [littleEndianValue]

theorem ConsumeBool_nil : ConsumeBool { data := [] } = some (false, { data := [] }) := by
  unfold ConsumeBool
  rw [ConsumeUint8_positional]
  simp [littleEndianValue]

/-- C7: on a non-empty buffer `ConsumeBool()` returns `true` exactly when the
least-significant bit of the last remaining byte is 1, and removes exactly
that last byte; on an empty buffer it returns `false` and removes nothing. -/
theorem consume_bool_last_bit (d : List Byte) :
    (∀ hne : d ≠ [],
      ConsumeBool { data := d } =
        some ((d.getLast hne).val.testBit 0, { data := d.dropLast })) ∧
    ConsumeBool { data := [] } = some (false, { data := [] }) := by
  refine ⟨fun hne => ?_, ConsumeBool_nil⟩
  have hd := List.dropLast_append_getLast hne
  have h := ConsumeBool_concat d.dropLast (d.getLast hne)
  rw [hd] at h
  rw [h, Nat.testBit_zero]

theorem consume_bool_last_bit_witness :
    ([0xba, 0xad, 0xf0, 0x0d] : List Byte) ≠ [] ∧
      ConsumeBool { data := [0xba, 0xad, 0xf0, 0x0d] } =
        some (true, { data := [0xba, 0xad, 0xf0] }) :=
  ⟨List.cons_ne_nil _ _,
    (consume_bool_last_bit [0xba, 0xad, 0xf0, 0x0d]).1 (List.cons_ne_nil _ _)⟩

/-! ## Frame properties of the two consuming directions -/

/-- The escaped-string loop always returns: it leaves a back part of the
data and appends at most one byte per iteration allowed. -/
theorem randomLengthLoop_some (k : Nat) :
    ∀ (data result : List Byte), ∃ res fdp1,
      randomLengthLoop k { data := data } result = some (res, fdp1) ∧
        fdp1.data <:+ data ∧ res.length ≤ result.length + k := by
  induction k with
  | zero =>
    intro data result
    exact ⟨result, _, rfl, List.suffix_refl _, le_refl _⟩
  | succ k ih =>
    intro data result
    rcases data with _ | ⟨b, tl⟩
    · exact ⟨result, _, randomLengthLoop_nil _ _, List.suffix_refl _, by omega⟩
    · by_cases hb : b = backslash
      · subst hb
        rcases tl with _ | ⟨c, tl2⟩
        · obtain ⟨res, fdp1, h, hs, hl⟩ := ih [] (result ++ [backslash])
          refine ⟨res, fdp1, by rw [randomLengthLoop_lone_marker]; exact h,
            hs.trans List.nil_suffix, ?_⟩
          simp only [List.length_append, List.length_singleton] at hl
          omega
        · by_cases hc : c = backslash
          · subst hc
            obtain ⟨res, fdp1, h, hs, hl⟩ := ih tl2 (result ++ [backslash])
            refine ⟨res, fdp1, by rw [randomLengthLoop_escaped]; exact h,
              hs.trans ((List.suffix_cons _ _).trans (List.suffix_cons _ _)), ?_⟩
            simp only [List.length_append, List.length_singleton] at hl
            omega
          · exact ⟨result, _, randomLengthLoop_terminator k c tl2 result hc,
              (List.suffix_cons _ _).trans (List.suffix_cons _ _), by omega⟩
      · obtain ⟨res, fdp1, h, hs, hl⟩ := ih tl (result ++ [b])
        refine ⟨res, fdp1, by rw [randomLengthLoop_plain k b tl result hb]; exact h,
          hs.trans (List.suffix_cons _ _), ?_⟩
        simp only [List.length_append, List.length_singleton] at hl
        omega

/-- C8: each consuming direction leaves the other boundary untouched.  After
a front-consuming operation (`ConsumeBytes`, `ConsumeBytesAsString`,
`ConsumeRemainingBytes`, `ConsumeRandomLengthString`,
`ConsumeRemainingRandomLengthString`) the remaining data is a suffix of the
data before the call; after a tail-consuming operation (every ranged or
unranged integer decode, `ConsumeBool`) it is a prefix of the data before
the call; in both cases the number of remaining bytes does not grow. -/
theorem consuming_directions_independent (fdp : FuzzedDataProvider) :
    (∀ n : Int, 0 ≤ n → ∃ res fdp1, ConsumeBytes fdp n = some (res, fdp1) ∧
        fdp1.data <:+ fdp.data ∧ RemainingBytes fdp1 ≤ RemainingBytes fdp) ∧
    (∀ n : Int, 0 ≤ n → ∃ res fdp1, ConsumeBytesAsString fdp n = some (res, fdp1) ∧
        fdp1.data <:+ fdp.data ∧ RemainingBytes fdp1 ≤ RemainingBytes fdp) ∧
    (∃ res fdp1, ConsumeRemainingBytes fdp = some (res, fdp1) ∧
        fdp1.data <:+ fdp.data ∧ RemainingBytes fdp1 ≤ RemainingBytes fdp) ∧
    (∀ maxLength : Int, ∃ res fdp1,
        ConsumeRandomLengthString fdp maxLength = some (res, fdp1) ∧
        fdp1.data <:+ fdp.data ∧ RemainingBytes fdp1 ≤ RemainingBytes fdp) ∧
    (∃ res fdp1, ConsumeRemainingRandomLengthString fdp = some (res, fdp1) ∧
        fdp1.data <:+ fdp.data ∧ RemainingBytes fdp1 ≤ RemainingBytes fdp) ∧
    (∀ (T : IntegralType) (minVal maxVal : Int), T.InRange minVal → T.InRange maxVal →
        minVal ≤ maxVal →
        ∃ v fdp1, ConsumeXInRange T fdp minVal maxVal = some (v, fdp1) ∧
          fdp1.data <+: fdp.data ∧ RemainingBytes fdp1 ≤ RemainingBytes fdp) ∧
    (∀ T : IntegralType, ∃ v fdp1, ConsumeX T fdp = some (v, fdp1) ∧
        fdp1.data <+: fdp.data ∧ RemainingBytes fdp1 ≤ RemainingBytes fdp) ∧
    (∃ v fdp1, ConsumeBool fdp = some (v, fdp1) ∧
        fdp1.data <+: fdp.data ∧ RemainingBytes fdp1 ≤ RemainingBytes fdp) := by
  have front : ∀ n : Int, 0 ≤ n → ∃ res fdp1, ConsumeBytes fdp n = some (res, fdp1) ∧
      fdp1.data <:+ fdp.data ∧ RemainingBytes fdp1 ≤ RemainingBytes fdp := by
    intro n hn
    refine ⟨_, _, ConsumeBytes_eq fdp n hn, List.drop_suffix _ _, ?_⟩
    simp only [RemainingBytes, List.length_drop]
    omega
  have escaped : ∀ maxLength : Int, ∃ res fdp1,
      ConsumeRandomLengthString fdp maxLength = some (res, fdp1) ∧
      fdp1.data <:+ fdp.data ∧ RemainingBytes fdp1 ≤ RemainingBytes fdp := by
    intro maxLength
    obtain ⟨res, fdp1, h, hs, _⟩ := randomLengthLoop_some maxLength.toNat fdp.data []
    exact ⟨res, fdp1, h, hs, hs.length_le⟩
  have tail : ∀ (T : IntegralType) (minVal maxVal : Int), T.InRange minVal →
      T.InRange maxVal → minVal ≤ maxVal →
      ∃ v fdp1, consumeIntegralInRange T fdp minVal maxVal = some (v, fdp1) ∧
        fdp1.data <+: fdp.data ∧ RemainingBytes fdp1 ≤ RemainingBytes fdp := by
    intro T minVal maxVal hlo hhi hle
    obtain ⟨x, k, _, _, _, h⟩ := consumeIntegralInRange_some T fdp minVal maxVal hlo hhi hle
    refine ⟨_, _, h, List.take_prefix _ _, ?_⟩
    simp only [RemainingBytes, List.length_take]
    omega
  refine ⟨front, front, front _ (Int.ofNat_nonneg _), escaped, escaped _, ?_, ?_, ?_⟩
  · intro T
    rw [ConsumeXInRange_eq]
    exact tail T
  · intro T
    rw [ConsumeX_eq]
    exact tail T _ _ T.inRange_minValue T.inRange_maxValue T.minValue_le_maxValue
  · obtain ⟨v, fdp1, h, hp, hl⟩ := tail .uint8 0 255 (by decide) (by decide) (by decide)
    refine ⟨decide (1 &&& v.toNat ≠ 0), fdp1, ?_, hp, hl⟩
    unfold ConsumeBool
    rw [ConsumeUint8_eq, h]
    rfl

theorem consuming_directions_independent_witness :
    (0 : Int) ≤ 3 ∧
      ∃ res fdp1, ConsumeBytes { data := [0xba, 0xad, 0xf0, 0x0d] } 3 = some (res, fdp1) ∧
        fdp1.data <:+ [0xba, 0xad, 0xf0, 0x0d] ∧
        RemainingBytes fdp1 ≤ RemainingBytes { data := [0xba, 0xad, 0xf0, 0x0d] } :=
  ⟨by decide,
    (consuming_directions_independent { data := [0xba, 0xad, 0xf0, 0x0d] }).1 3 (by decide)⟩

/-! ## The escaped-length string consumer -/

/-- C9: for every buffer and every `maxLength >= 0` the string returned by
`ConsumeRandomLengthString(maxLength)` has between 0 and `maxLength` bytes,
however many input bytes the call consumes. -/
theorem random_length_string_bounded (fdp : FuzzedDataProvider) (maxLength : Int)
    (hmax : 0 ≤ maxLength) :
    ∃ res fdp1, ConsumeRandomLengthString fdp maxLength = some (res, fdp1) ∧
      0 ≤ (res.length : Int) ∧ (res.length : Int) ≤ maxLength := by
  obtain ⟨res, fdp1, h, _, hl⟩ := randomLengthLoop_some maxLength.toNat fdp.data []
  refine ⟨res, fdp1, h, Int.ofNat_nonneg _, ?_⟩
  simp only [List.length_nil] at hl
  omega

theorem random_length_string_bounded_witness :
    (0 : Int) ≤ 2 ∧
      ∃ res fdp1,
        ConsumeRandomLengthString { data := [0x5c, 0x5c, 0x5c, 0x5c, 0x61] } 2 =
          some (res, fdp1) ∧
        0 ≤ (res.length : Int) ∧ (res.length : Int) ≤ 2 :=
  ⟨by decide,
    random_length_string_bounded { data := [0x5c, 0x5c, 0x5c, 0x5c, 0x61] } 2 (by decide)⟩

theorem randomLengthLoop_esc (c : Byte) (rest : List Byte) (hc : c ≠ backslash) :
    ∀ (s : List Byte) (k : Nat) (result : List Byte), s.length < k →
      randomLengthLoop k { data := esc s ++ [backslash, c] ++ rest } result =
        some (result ++ s, { data := rest }) := by
  intro s
  induction s with
  | nil =>
    intro k result hk
    obtain ⟨k, rfl⟩ : ∃ j, k = j + 1 := ⟨k - 1, by simp at hk; omega⟩
    simpa [esc] using randomLengthLoop_terminator k c rest result hc
  | cons b s ih =>
    intro k result hk
    obtain ⟨k, rfl⟩ : ∃ j, k = j + 1 := ⟨k - 1, by simp at hk; omega⟩
    have hk2 : s.length < k := by simp at hk; omega
    have hstep := ih k (result ++ [b]) hk2
    by_cases hb : b = backslash
    · subst hb
      have : esc (backslash :: s) ++ [backslash, c] ++ rest =
          backslash :: backslash :: (esc s ++ [backslash, c] ++ rest) := by simp [esc]
      rw [this, randomLengthLoop_escaped, hstep]
      simp
    · have : esc (b :: s) ++ [backslash, c] ++ rest =
          b :: (esc s ++ [backslash, c] ++ rest) := by simp [esc, hb]
      rw [this, randomLengthLoop_plain _ _ _ _ hb, hstep]
      simp

/-- C10: decoding undoes escaping.  With `esc s` the byte string `s` in which
every escape marker is doubled, for every `s`, every byte `c` other than the
marker, every `rest` and every `maxLength > len(s)`,
`ConsumeRandomLengthString(maxLength)` on `esc s ++ [marker, c] ++ rest`
returns exactly `s` and leaves exactly `rest`. -/
theorem random_length_string_unescapes (s rest : List Byte) (c : Byte) (maxLength : Int)
    (hc : c ≠ backslash) (hlen : (s.length : Int) < maxLength) :
    ConsumeRandomLengthString { data := esc s ++ [backslash, c] ++ rest } maxLength =
      some (s, { data := rest }) := by
  unfold ConsumeRandomLengthString
  rw [randomLengthLoop_esc c rest hc s maxLength.toNat [] (by omega)]
  simp

theorem random_length_string_unescapes_witness :
    (0x62 : Byte) ≠ backslash ∧ (([0x61, 0x5c] : List Byte).length : Int) < 3 ∧
      ConsumeRandomLengthString
          { data := esc [0x61, 0x5c] ++ [backslash, 0x62] ++ [0x63, 0x64] } 3 =
        some ([0x61, 0x5c], { data := [0x63, 0x64] }) :=
  ⟨by decide, by decide,
    random_length_string_unescapes [0x61, 0x5c] [0x63, 0x64] 0x62 3 (by decide) (by decide)⟩

/-! ## String extraction against byte extraction -/

/-- C11: for every `n >= 0` and every buffer, `ConsumeBytesAsString(n)`
performs the same extraction as `ConsumeBytes(n)`: both return, the bytes of
the string are the byte sequence `ConsumeBytes(n)` returns on the same
buffer, and both leave the same remaining data. -/
theorem bytes_as_string_same_extraction (fdp : FuzzedDataProvider) (n : Int) (hn : 0 ≤ n) :
    ∃ res fdp1, ConsumeBytes fdp n = some (res, fdp1) ∧
      ConsumeBytesAsString fdp n = some (res, fdp1) :=
  ⟨_, _, ConsumeBytes_eq fdp n hn, ConsumeBytesAsString_eq fdp n hn⟩

theorem bytes_as_string_same_extraction_witness :
    (0 : Int) ≤ 4 ∧
      ∃ res fdp1, ConsumeBytes { data := [0x66, 0x6f, 0x6f, 0x20, 0x62] } 4 = some (res, fdp1) ∧
        ConsumeBytesAsString { data := [0x66, 0x6f, 0x6f, 0x20, 0x62] } 4 = some (res, fdp1) :=
  ⟨by decide,
    bytes_as_string_same_extraction { data := [0x66, 0x6f, 0x6f, 0x20, 0x62] } 4 (by decide)⟩

/-! ## Unranged signed decodes -/

/-- The decode over the whole range of a type of `w` bytes returns the least
value of the type plus the positional value of the last `min (length d) w`
bytes, and removes those bytes. -/
theorem consumeIntegralInRange_full (T : IntegralType) (w : Nat) (d : List Byte)
    (hw : T.maxValue - T.minValue = (256 : Int) ^ w - 1) :
    consumeIntegralInRange T { data := d } T.minValue T.maxValue =
      some (T.minValue + (littleEndianValue (d.drop (d.length - min d.length w)) : Int),
        { data := d.take (d.length - min d.length w) }) := by
  have hone : 1 ≤ 256 ^ w := Nat.one_le_pow _ _ (by norm_num)
  have hr : (T.maxValue - T.minValue).toNat = 256 ^ w - 1 := by
    rw [hw]
    have h1 : ((256 : Int) ^ w - 1) = ((256 ^ w - 1 : Nat) : Int) := by
      push_cast [Nat.cast_sub hone]
      ring
    rw [h1, Int.toNat_ofNat]
  have hneed : (T.maxValue - T.minValue).toNat < 256 ^ w := by omega
  have hleast : ∀ j, j < w → 256 ^ j ≤ (T.maxValue - T.minValue).toNat := by
    intro j hj
    have : 256 ^ j < 256 ^ w := Nat.pow_lt_pow_right (by norm_num) hj
    omega
  rw [consumeIntegralInRange_eq T _ _ _ T.inRange_minValue T.inRange_maxValue
    T.minValue_le_maxValue w hneed hleast, hr]
  have hacc := littleEndianValue_lt (d.drop (d.length - min d.length w))
  have hlen : (d.drop (d.length - min d.length w)).length ≤ w := by
    rw [List.length_drop]; omega
  have hpow : 256 ^ (d.drop (d.length - min d.length w)).length ≤ 256 ^ w :=
    Nat.pow_le_pow_right (by norm_num) hlen
  have hmod : littleEndianValue (d.drop (d.length - min d.length w)) % (256 ^ w - 1 + 1) =
      littleEndianValue (d.drop (d.length - min d.length w)) :=
    Nat.mod_eq_of_lt (by omega)
  simp only [hmod]

theorem xor_two_pow_of_lt (k x : Nat) (hx : x < 2 ^ k) : x ^^^ 2 ^ k = 2 ^ k + x := by
  apply Nat.eq_of_testBit_eq
  intro i
  rw [Nat.testBit_xor, Nat.testBit_two_pow]
  rcases Nat.lt_trichotomy i k with hlt | heq | hgt
  · rw [Nat.testBit_two_pow_add_gt hlt]
    have : ¬ k = i := by omega
    simp [this]
  · subst heq
    rw [Nat.testBit_two_pow_add_eq, Nat.testBit_lt_two_pow hx]
    simp
  · have hle : 2 ^ (k + 1) ≤ 2 ^ i := Nat.pow_le_pow_right (by norm_num) hgt
    have h1 : x < 2 ^ i := by rw [pow_succ] at hle; omega
    have h2 : 2 ^ k + x < 2 ^ i := by rw [pow_succ] at hle; omega
    have : ¬ k = i := by omega
    rw [Nat.testBit_lt_two_pow h1, Nat.testBit_lt_two_pow h2]
    simp [this]

theorem xor_two_pow_of_ge (k x : Nat) (hge : 2 ^ k ≤ x) (hx : x < 2 ^ (k + 1)) :
    x ^^^ 2 ^ k = x - 2 ^ k := by
  have hlt : x - 2 ^ k < 2 ^ k := by rw [pow_succ] at hx; omega
  have h := xor_two_pow_of_lt k (x - 2 ^ k) hlt
  have hsum : 2 ^ k + (x - 2 ^ k) = x := by omega
  rw [hsum] at h
  calc x ^^^ 2 ^ k = ((x - 2 ^ k) ^^^ 2 ^ k) ^^^ 2 ^ k := by rw [h]
    _ = x - 2 ^ k := by rw [Nat.xor_assoc, Nat.xor_self, Nat.xor_zero]

/-- Flipping the top bit of an unsigned value and reading the result in
two's complement adds the least value of the signed type. -/
theorem ofUint64_flip_top_bit (T : IntegralType) (hs : T.signed = true) (u : Nat)
    (hu : u < 2 ^ T.bits) :
    T.ofUint64 (u ^^^ 2 ^ (T.bits - 1)) = T.minValue + (u : Int) := by
  have hb : T.bits - 1 + 1 = T.bits := by
    rcases T.bits_cases with h | h | h | h <;> omega
  have hx : u ^^^ 2 ^ (T.bits - 1) =
      if u < 2 ^ (T.bits - 1) then 2 ^ (T.bits - 1) + u else u - 2 ^ (T.bits - 1) := by
    split
    · next h => exact xor_two_pow_of_lt _ _ h
    · next h => exact xor_two_pow_of_ge _ _ (Nat.le_of_not_lt h) (by rw [hb]; exact hu)
  rw [hx]
  unfold IntegralType.ofUint64 IntegralType.minValue
  rcases T with _ | _ | _ | _ | _ | _ | _ | _ | b | b <;> (try cases b) <;>
    simp [IntegralType.bits, IntegralType.signed] at hs hu ⊢ <;>
    split <;> split <;> omega



theorem signed_unsigned_pair (S U : IntegralType) (w : Nat) (d : List Byte)
    (hS : S.maxValue - S.minValue = (256 : Int) ^ w - 1) (hU0 : U.InRange 0)
    (hU : U.maxValue = (256 : Int) ^ w - 1) (hs : S.signed = true) (hbits : S.bits = 8 * w) :
    ∃ u fdp1, consumeIntegralInRange U { data := d } 0 U.maxValue = some (u, fdp1) ∧
      consumeIntegralInRange S { data := d } S.minValue S.maxValue =
        some (S.minValue + u, fdp1) ∧
      S.ofUint64 (u.toNat ^^^ 2 ^ (S.bits - 1)) = S.minValue + u := by
  refine ⟨_, _, consumeIntegralInRange_full_unsigned U w d hU0 hU,
    consumeIntegralInRange_full S w d hS, ?_⟩
  rw [Int.toNat_ofNat]
  apply ofUint64_flip_top_bit S hs
  have hacc := littleEndianValue_lt (d.drop (d.length - min d.length w))
  have hlen : (d.drop (d.length - min d.length w)).length ≤ w := by
    rw [List.length_drop]; omega
  have hpow : 256 ^ (d.drop (d.length - min d.length w)).length ≤ 256 ^ w :=
    Nat.pow_le_pow_right (by norm_num) hlen
  have h256 : (256 : Nat) ^ w = 2 ^ S.bits := by
    rw [hbits, pow_mul]; norm_num
  omega

/-- C15: for every width `N` in 8, 16, 32, 64 and every buffer, the unranged
signed decode `ConsumeIntN` consumes the same bytes as `ConsumeUintN` on the
same buffer and returns `MinIntN + u`, where `u` is the value `ConsumeUintN`
returns; this is `u` with its top bit flipped, read in two's complement.
The bytes `de ad be ef` give the `uint32` `0xefbeadde` and the `int32`
`1874767326`. -/
theorem signed_decode_is_offset_unsigned (d : List Byte) :
    (∃ u fdp1, ConsumeUint8 { data := d } = some (u, fdp1) ∧
      ConsumeInt8 { data := d } = some (-128 + u, fdp1) ∧
      IntegralType.int8.ofUint64 (u.toNat ^^^ 2 ^ 7) = -128 + u) ∧
    (∃ u fdp1, ConsumeUint16 { data := d } = some (u, fdp1) ∧
      ConsumeInt16 { data := d } = some (-32768 + u, fdp1) ∧
      IntegralType.int16.ofUint64 (u.toNat ^^^ 2 ^ 15) = -32768 + u) ∧
    (∃ u fdp1, ConsumeUint32 { data := d } = some (u, fdp1) ∧
      ConsumeInt32 { data := d } = some (-2147483648 + u, fdp1) ∧
      IntegralType.int32.ofUint64 (u.toNat ^^^ 2 ^ 31) = -2147483648 + u) ∧
    (∃ u fdp1, ConsumeUint64 { data := d } = some (u, fdp1) ∧
      ConsumeInt64 { data := d } = some (-9223372036854775808 + u, fdp1) ∧
      IntegralType.int64.ofUint64 (u.toNat ^^^ 2 ^ 63) = -9223372036854775808 + u) ∧
    ConsumeUint32 { data := [0xde, 0xad, 0xbe, 0xef] } = some (0xefbeadde, { data := [] }) ∧
    ConsumeInt32 { data := [0xde, 0xad, 0xbe, 0xef] } = some (1874767326, { data := [] }) := by
  refine ⟨?_, ?_, ?_, ?_, by decide, by decide⟩
  · exact signed_unsigned_pair .int8 .uint8 1 d (by decide) (by decide) (by decide) rfl rfl
  · exact signed_unsigned_pair .int16 .uint16 2 d (by decide) (by decide) (by decide) rfl rfl
  · exact signed_unsigned_pair .int32 .uint32 4 d (by decide) (by decide) (by decide) rfl rfl
  · exact signed_unsigned_pair .int64 .uint64 8 d (by decide) (by decide) (by decide) rfl rfl

/-! ## Lone trailing marker, the sample decodes, and degenerate ranges -/

theorem randomLengthLoop_plain_run (tl : List Byte) :
    ∀ (s : List Byte) (k : Nat) (result : List Byte), (∀ b ∈ s, b ≠ backslash) →
      randomLengthLoop (s.length + k) { data := s ++ tl } result =
        randomLengthLoop k { data := tl } (result ++ s) := by
  intro s
  induction s with
  | nil => intro k result _; simp
  | cons b s ih =>
    intro k result hs
    have hb : b ≠ backslash := hs b (List.mem_cons_self _ _)
    have hrest : ∀ c ∈ s, c ≠ backslash := fun c hc => hs c (List.mem_cons_of_mem _ hc)
    have hk : (b :: s).length + k = (s.length + k) + 1 := by
      simp only [List.length_cons]; omega
    rw [hk, List.cons_append, randomLengthLoop_plain _ _ _ _ hb, ih k (result ++ [b]) hrest]
    simp

/-- C16: an escape marker with no following byte is emitted as it is: for
every byte string `s` without a marker byte and every
`maxLength >= len(s) + 1`, `ConsumeRandomLengthString(maxLength)` on the
buffer `s ++ [marker]` returns `s ++ [marker]` and leaves the buffer empty. -/
theorem trailing_marker_is_emitted (s : List Byte) (maxLength : Int)
    (hs : ∀ b ∈ s, b ≠ backslash) (hlen : (s.length : Int) + 1 ≤ maxLength) :
    ConsumeRandomLengthString { data := s ++ [backslash] } maxLength =
      some (s ++ [backslash], { data := [] }) := by
  unfold ConsumeRandomLengthString
  obtain ⟨k, hk⟩ : ∃ k, maxLength.toNat = s.length + (k + 1) :=
    ⟨maxLength.toNat - s.length - 1, by omega⟩
  rw [hk, randomLengthLoop_plain_run [backslash] s (k + 1) [] hs,
    randomLengthLoop_lone_marker, randomLengthLoop_nil]
  simp

theorem trailing_marker_is_emitted_witness :
    (∀ b ∈ ([0x68, 0x69] : List Byte), b ≠ backslash) ∧
      ((([0x68, 0x69] : List Byte).length : Int) + 1 ≤ 100) ∧
      ConsumeRandomLengthString { data := [0x68, 0x69] ++ [backslash] } 100 =
        some ([0x68, 0x69] ++ [backslash], { data := [] }) :=
  ⟨by simp [backslash], by decide,
    trailing_marker_is_emitted [0x68, 0x69] 100 (by simp [backslash]) (by decide)⟩

/-- C17, as stated, fails: on a provider freshly created over the sample
input the first `ConsumeInt64InRange(-1, 1)` returns 1 (the last byte `0xef`
is 239, and 239 mod 3 is 2), so the two decodes do not yield 0 and then -1. -/
theorem fresh_sample_decodes_not_zero_then_minus_one :
    ¬ ∃ fdp1 fdp2,
      ConsumeInt64InRange
          (NewFuzzedDataProvider [0xba, 0xad, 0xf0, 0x0d, 0xde, 0xad, 0xbe, 0xef]) (-1) 1 =
        some (0, fdp1) ∧
      ConsumeInt64InRange fdp1 (-1) 1 = some (-1, fdp2) := by
  rintro ⟨fdp1, fdp2, h1, _⟩
  have h : ConsumeInt64InRange
      (NewFuzzedDataProvider [0xba, 0xad, 0xf0, 0x0d, 0xde, 0xad, 0xbe, 0xef]) (-1) 1 =
        some (1, { data := [0xba, 0xad, 0xf0, 0x0d, 0xde, 0xad, 0xbe] }) := by decide
  rw [h] at h1
  simp at h1

/-- C17, amended: on a provider over the sample input, after the two decodes
`ConsumeInt64InRange(-110, 871)` (which yield 380 and 210 and leave the four
bytes `ba ad f0 0d`), two successive decodes `ConsumeInt64InRange(-1, 1)`
yield 0 and then -1; on the freshly created provider they yield 1 and then
0. -/
theorem sample_decodes_in_small_range :
    ConsumeInt64InRange
        (NewFuzzedDataProvider [0xba, 0xad, 0xf0, 0x0d, 0xde, 0xad, 0xbe, 0xef]) (-110) 871 =
      some (380, { data := [0xba, 0xad, 0xf0, 0x0d, 0xde, 0xad] }) ∧
    ConsumeInt64InRange { data := [0xba, 0xad, 0xf0, 0x0d, 0xde, 0xad] } (-110) 871 =
      some (210, { data := [0xba, 0xad, 0xf0, 0x0d] }) ∧
    ConsumeInt64InRange { data := [0xba, 0xad, 0xf0, 0x0d] } (-1) 1 =
      some (0, { data := [0xba, 0xad, 0xf0] }) ∧
    ConsumeInt64InRange { data := [0xba, 0xad, 0xf0] } (-1) 1 =
      some (-1, { data := [0xba, 0xad] }) ∧
    ConsumeInt64InRange
        (NewFuzzedDataProvider [0xba, 0xad, 0xf0, 0x0d, 0xde, 0xad, 0xbe, 0xef]) (-1) 1 =
      some (1, { data := [0xba, 0xad, 0xf0, 0x0d, 0xde, 0xad, 0xbe] }) ∧
    ConsumeInt64InRange { data := [0xba, 0xad, 0xf0, 0x0d, 0xde, 0xad, 0xbe] } (-1) 1 =
      some (0, { data := [0xba, 0xad, 0xf0, 0x0d, 0xde, 0xad] }) := by
  refine ⟨by decide, by decide, by decide, by decide, by decide, by decide⟩

/-- C20: a degenerate range consumes nothing: for every integral type, every
value `m` of the type and every buffer, `ConsumeXInRange(m, m)` returns `m`
and leaves the remaining data unchanged. -/
theorem degenerate_range_consumes_nothing (T : IntegralType) (fdp : FuzzedDataProvider)
    (m : Int) (hm : T.InRange m) :
    ConsumeXInRange T fdp m m = some (m, fdp) := by
  rw [ConsumeXInRange_eq,
    consumeIntegralInRange_eq T fdp m m hm hm (le_refl m) 0 (by simp) (by simp)]
  simp [littleEndianValue]

theorem degenerate_range_consumes_nothing_witness :
    IntegralType.int16.InRange (-7) ∧
      ConsumeXInRange .int16 { data := [0xba, 0xad] } (-7) (-7) =
        some (-7, { data := [0xba, 0xad] }) :=
  ⟨by decide, degenerate_range_consumes_nothing .int16 { data := [0xba, 0xad] } (-7) (by decide)⟩

/-! ## Commutation of front and tail consumption -/

theorem need_le_bytes (T : IntegralType) (r need : Nat) (hr : r < 2 ^ T.bits)
    (hleast : ∀ j, j < need → 256 ^ j ≤ r) : need ≤ T.bits / 8 := by
  by_contra hcon
  have h1 : 256 ^ (T.bits / 8) ≤ r := hleast _ (by omega)
  have h2 : (256 : Nat) ^ (T.bits / 8) = 2 ^ T.bits := by
    rcases T.bits_cases with h | h | h | h <;> rw [h] <;> norm_num
  omega

/-- C18: front and tail consumption commute when they cannot overlap.  For
every integral type `T` of byte width `w`, every range `minVal <= maxVal`,
every `n >= 0` and every buffer with at least `n + w` remaining bytes,
`ConsumeBytes(n)` followed by the ranged decode of `T` yields the same byte
sequence, the same integer and the same final remaining data as the ranged
decode followed by `ConsumeBytes(n)`. -/
theorem front_and_tail_commute (T : IntegralType) (fdp : FuzzedDataProvider)
    (minVal maxVal : Int) (n : Int) (hlo : T.InRange minVal) (hhi : T.InRange maxVal)
    (hle : minVal ≤ maxVal) (hn : 0 ≤ n)
    (hlen : n + ((T.bits / 8 : Nat) : Int) ≤ (RemainingBytes fdp : Int)) :
    ∃ bytes v fdpA fdpB fdpEnd,
      ConsumeBytes fdp n = some (bytes, fdpA) ∧
      ConsumeXInRange T fdpA minVal maxVal = some (v, fdpEnd) ∧
      ConsumeXInRange T fdp minVal maxVal = some (v, fdpB) ∧
      ConsumeBytes fdpB n = some (bytes, fdpEnd) := by
  obtain ⟨d⟩ := fdp
  obtain ⟨m, rfl⟩ := Int.eq_ofNat_of_zero_le hn
  obtain ⟨_, hr_lt⟩ := range_eq T minVal maxVal hlo hhi hle
  have hr64 : (maxVal - minVal).toNat < 2 ^ 64 :=
    lt_of_lt_of_le hr_lt (Nat.pow_le_pow_right (by norm_num) T.bits_le)
  obtain ⟨need, hneed, hleast⟩ := exists_need _ hr64
  have hnb : need ≤ T.bits / 8 := need_le_bytes T _ need hr_lt hleast
  have hlen2 : m + need ≤ d.length := by
    simp only [RemainingBytes] at hlen
    omega
  rw [ConsumeXInRange_eq]
  have e1 : min m d.length = m := by omega
  have e2 : min (d.length - m) need = need := by omega
  have e3 : min d.length need = need := by omega
  have e4 : d.length - m - need + m = d.length - need := by omega
  have e5 : min m (d.length - need) = m := by omega
  have e6 : min (d.length - need) d.length = d.length - need := by omega
  have e7 : m + (d.length - m - need) = d.length - need := by omega
  have hA : ConsumeBytes { data := d } (m : Int) = some (d.take m, { data := d.drop m }) := by
    rw [ConsumeBytes_eq _ _ hn]
    simp only [Int.toNat_ofNat, e1]
  have hB : consumeIntegralInRange T { data := d } minVal maxVal =
      some (minVal + ((littleEndianValue (d.drop (d.length - need))
          % ((maxVal - minVal).toNat + 1) : Nat) : Int),
        { data := d.take (d.length - need) }) := by
    rw [consumeIntegralInRange_eq T _ minVal maxVal hlo hhi hle need hneed hleast]
    simp only [e3]
  have hA2 : consumeIntegralInRange T { data := d.drop m } minVal maxVal =
      some (minVal + ((littleEndianValue (d.drop (d.length - need))
          % ((maxVal - minVal).toNat + 1) : Nat) : Int),
        { data := (d.take (d.length - need)).drop m }) := by
    rw [consumeIntegralInRange_eq T _ minVal maxVal hlo hhi hle need hneed hleast]
    simp only [List.length_drop, List.drop_drop, e2, e7, List.take_drop]
  have hB2 : ConsumeBytes { data := d.take (d.length - need) } (m : Int) =
      some (d.take m, { data := (d.take (d.length - need)).drop m }) := by
    rw [ConsumeBytes_eq _ _ hn]
    simp only [Int.toNat_ofNat, List.length_take, e6, e5, List.take_take]
  exact ⟨_, _, _, _, _, hA, hA2, hB, hB2⟩

theorem front_and_tail_commute_witness :
    IntegralType.uint16.InRange 0 ∧ IntegralType.uint16.InRange 1000 ∧ (0 : Int) ≤ 1000 ∧
      (0 : Int) ≤ 1 ∧
      (1 : Int) + ((IntegralType.uint16.bits / 8 : Nat) : Int) ≤
        (RemainingBytes { data := [0xba, 0xad, 0xf0, 0x0d] } : Int) ∧
      ∃ bytes v fdpA fdpB fdpEnd,
        ConsumeBytes { data := [0xba, 0xad, 0xf0, 0x0d] } 1 = some (bytes, fdpA) ∧
        ConsumeXInRange .uint16 fdpA 0 1000 = some (v, fdpEnd) ∧
        ConsumeXInRange .uint16 { data := [0xba, 0xad, 0xf0, 0x0d] } 0 1000 = some (v, fdpB) ∧
        ConsumeBytes fdpB 1 = some (bytes, fdpEnd) :=
  ⟨by decide, by decide, by decide, by decide, by decide,
    front_and_tail_commute .uint16 { data := [0xba, 0xad, 0xf0, 0x0d] } 0 1000 1
      (by decide) (by decide) (by decide) (by decide) (by decide)⟩

/-! ## Reachability of every value of a range -/

theorem leBytes_length (k x : Nat) : (leBytes k x).length = k := by
  induction k generalizing x with
  | zero => rfl
  | succ k ih => simp [leBytes, ih]

theorem littleEndianValue_leBytes (k x : Nat) :
    littleEndianValue (leBytes k x) = x % 256 ^ k := by
  induction k generalizing x with
  | zero => simp [leBytes, littleEndianValue, Nat.mod_one]
  | succ k ih =>
    have hv : (Fin.ofNat (x % 256) : Byte).val = x % 256 := by
      simp [Fin.ofNat]
    rw [leBytes, littleEndianValue, ih, hv, pow_succ', Nat.mod_mul]

/-- C19: every value of a valid range is reachable: for every integral type
`T`, every range `minVal <= maxVal` and every `v` with
`minVal <= v <= maxVal` there is a buffer of at most `sizeof(T)` bytes on
which `ConsumeXInRange(minVal, maxVal)` returns `v`. -/
theorem every_value_reachable (T : IntegralType) (minVal maxVal v : Int)
    (hlo : T.InRange minVal) (hhi : T.InRange maxVal) (hv1 : minVal ≤ v) (hv2 : v ≤ maxVal) :
    ∃ d : List Byte, d.length ≤ T.bits / 8 ∧
      ∃ fdp1, ConsumeXInRange T { data := d } minVal maxVal = some (v, fdp1) := by
  have hle : minVal ≤ maxVal := le_trans hv1 hv2
  obtain ⟨_, hr_lt⟩ := range_eq T minVal maxVal hlo hhi hle
  have hr64 : (maxVal - minVal).toNat < 2 ^ 64 :=
    lt_of_lt_of_le hr_lt (Nat.pow_le_pow_right (by norm_num) T.bits_le)
  obtain ⟨need, hneed, hleast⟩ := exists_need _ hr64
  have hnb : need ≤ T.bits / 8 := need_le_bytes T _ need hr_lt hleast
  have hx : (v - minVal).toNat ≤ (maxVal - minVal).toNat := by omega
  refine ⟨leBytes need (v - minVal).toNat, by rw [leBytes_length]; exact hnb,
    { data := [] }, ?_⟩
  rw [ConsumeXInRange_eq,
    consumeIntegralInRange_eq T _ minVal maxVal hlo hhi hle need hneed hleast]
  simp only [leBytes_length, Nat.min_self, Nat.sub_self, List.drop_zero, List.take_zero,
    littleEndianValue_leBytes]
  have h1 : (v - minVal).toNat % 256 ^ need = (v - minVal).toNat :=
    Nat.mod_eq_of_lt (lt_of_le_of_lt hx hneed)
  have h2 : (v - minVal).toNat % ((maxVal - minVal).toNat + 1) = (v - minVal).toNat :=
    Nat.mod_eq_of_lt (Nat.lt_succ_of_le hx)
  rw [h1, h2]
  have h3 : (((v - minVal).toNat : Nat) : Int) = v - minVal := Int.toNat_of_nonneg (by omega)
  rw [h3]
  congr 2
  omega

theorem every_value_reachable_witness :
    IntegralType.int16.InRange (-110) ∧ IntegralType.int16.InRange 871 ∧
      (-110 : Int) ≤ 380 ∧ (380 : Int) ≤ 871 ∧
      ∃ d : List Byte, d.length ≤ IntegralType.int16.bits / 8 ∧
        ∃ fdp1, ConsumeXInRange .int16 { data := d } (-110) 871 = some (380, fdp1) :=
  ⟨by decide, by decide, by decide, by decide,
    every_value_reachable .int16 (-110) 871 380 (by decide) (by decide) (by decide)
      (by decide)⟩

/-! ## Bytes removed by the numeric decodes -/

/-- A full-range unsigned decode returns and removes at most the byte width
of its type. -/
theorem consumeIntegralInRange_removes (T : IntegralType) (fdp : FuzzedDataProvider)
    (minVal maxVal : Int) (hlo : T.InRange minVal) (hhi : T.InRange maxVal)
    (hle : minVal ≤ maxVal) :
    ∃ v fdp1, consumeIntegralInRange T fdp minVal maxVal = some (v, fdp1) ∧
      RemainingBytes fdp ≤ RemainingBytes fdp1 + T.bits / 8 := by
  obtain ⟨x, k, _, hk, hkb, h⟩ := consumeIntegralInRange_some T fdp minVal maxVal hlo hhi hle
  refine ⟨_, _, h, ?_⟩
  simp only [RemainingBytes, List.length_take]
  omega

theorem ConsumeBool_removes (fdp : FuzzedDataProvider) :
    ∃ b fdp1, ConsumeBool fdp = some (b, fdp1) ∧
      RemainingBytes fdp ≤ RemainingBytes fdp1 + 1 := by
  obtain ⟨v, fdp1, h, hl⟩ :=
    consumeIntegralInRange_removes .uint8 fdp 0 255 (by decide) (by decide) (by decide)
  refine ⟨decide (1 &&& v.toNat ≠ 0), fdp1, ?_, hl⟩
  unfold ConsumeBool
  rw [ConsumeUint8_eq, h]
  rfl

theorem consumeProbability_removes (T : FloatingPointType) (A : FloatArith)
    (fdp : FuzzedDataProvider) :
    ∃ p fdp1, consumeProbability T A fdp = some (p, fdp1) ∧
      RemainingBytes fdp ≤ RemainingBytes fdp1 + T.sizeof := by
  unfold consumeProbability
  cases T
  · obtain ⟨v, fdp1, h, hl⟩ :=
      consumeIntegralInRange_removes .uint32 fdp 0 4294967295 (by decide) (by decide)
        (by decide)
    have h2 : ConsumeUint32 fdp = some (v, fdp1) := h
    rw [if_pos (by decide), h2]
    exact ⟨_, _, rfl, hl⟩
  · obtain ⟨v, fdp1, h, hl⟩ :=
      consumeIntegralInRange_removes .uint64 fdp 0 18446744073709551615 (by decide)
        (by decide) (by decide)
    have h2 : ConsumeUint64 fdp = some (v, fdp1) := h
    rw [if_neg (by decide), h2]
    exact ⟨_, _, rfl, hl⟩

/-- A floating-point range decode whose range test passes returns and
removes at most one byte more than the byte width of its type. -/
theorem consumeFloatingPointInRange_removes (T : FloatingPointType) (A : FloatArith)
    (fdp : FuzzedDataProvider) (minVal maxVal limMax : A.F)
    (hle : A.lt maxVal minVal = false) :
    ∃ v fdp1, consumeFloatingPointInRange T A fdp minVal maxVal limMax = some (v, fdp1) ∧
      RemainingBytes fdp ≤ RemainingBytes fdp1 + (T.sizeof + 1) := by
  unfold consumeFloatingPointInRange
  rw [hle]
  simp only [Bool.false_eq_true, if_false]
  split
  · obtain ⟨b, fdp1, hb, hl1⟩ := ConsumeBool_removes fdp
    obtain ⟨p, fdp2, hp, hl2⟩ := consumeProbability_removes T A fdp1
    rw [hb]
    simp only [hp, Option.map_some']
    exact ⟨_, _, rfl, by omega⟩
  · obtain ⟨p, fdp2, hp, hl2⟩ := consumeProbability_removes T A fdp
    simp only [hp, Option.map_some']
    exact ⟨_, _, rfl, by omega⟩

/-- On the split branch the decode is a boolean draw followed by a
probability draw. -/
theorem consumeFloatingPointInRange_split (T : FloatingPointType) (A : FloatArith)
    (fdp : FuzzedDataProvider) (minVal maxVal limMax : A.F)
    (h0 : A.lt maxVal minVal = false) (h1 : A.lt A.zero maxVal = true)
    (h2 : A.lt minVal A.zero = true) (h3 : A.lt (A.add minVal limMax) maxVal = true) :
    consumeFloatingPointInRange T A fdp minVal maxVal limMax =
      (ConsumeBool fdp).bind (fun q =>
        (consumeProbability T A q.2).map (fun p =>
          (A.add (if q.1 then
              A.add minVal (A.sub (A.div maxVal A.two) (A.div minVal A.two)) else minVal)
            (A.mul (A.sub (A.div maxVal A.two) (A.div minVal A.two)) p.1), p.2))) := by
  unfold consumeFloatingPointInRange
  rw [h0, h1, h2, h3]
  simp only [Bool.false_eq_true, if_false, and_self, if_true]
  cases ConsumeBool fdp with
  | none => rfl
  | some q => rfl

theorem exactArith_branch (M : Rat) (hM : 0 < M) :
    (exactArith M).lt (exactArith M).maxFloat (exactArith M).negMaxFloat = false ∧
    (exactArith M).lt (exactArith M).zero (exactArith M).maxFloat = true ∧
    (exactArith M).lt (exactArith M).negMaxFloat (exactArith M).zero = true ∧
    (exactArith M).lt
      ((exactArith M).add (exactArith M).negMaxFloat (exactArith M).maxFloat)
      (exactArith M).maxFloat = true := by
  simp only [exactArith, decide_eq_false_iff_not, decide_eq_true_eq, not_lt]
  refine ⟨by linarith, hM, by linarith, by linarith⟩

theorem maxFloat64_pos : (0 : Rat) < 2 ^ 1024 - 2 ^ 971 := by norm_num

theorem maxFloat32_pos : (0 : Rat) < 2 ^ 128 - 2 ^ 104 := by norm_num

/-- C13, as stated, fails: `ConsumeFloat64()` takes the split branch (its
range straddles zero and `maxVal > minVal + limMax`), so it draws a boolean
(one byte) and then a 64-bit probability (eight bytes): on a buffer of nine
bytes the call returns and has removed nine bytes, more than eight. -/
theorem float64_decode_removes_nine_bytes :
    ∃ v fdp1,
      ConsumeFloat64 exactFloat64 { data := [1, 2, 3, 4, 5, 6, 7, 8, 9] } = some (v, fdp1) ∧
      ¬ (RemainingBytes { data := [1, 2, 3, 4, 5, 6, 7, 8, 9] } ≤ RemainingBytes fdp1 + 8) := by
  obtain ⟨h0, h1, h2, h3⟩ := exactArith_branch (2 ^ 1024 - 2 ^ 971) maxFloat64_pos
  have hsplit := consumeFloatingPointInRange_split .float64 exactFloat64
    { data := [1, 2, 3, 4, 5, 6, 7, 8, 9] } exactFloat64.negMaxFloat exactFloat64.maxFloat
    exactFloat64.maxFloat h0 h1 h2 h3
  have hbool : ConsumeBool { data := [1, 2, 3, 4, 5, 6, 7, 8, 9] } =
      some (true, { data := [1, 2, 3, 4, 5, 6, 7, 8] }) := by decide
  have huint : ConsumeUint64 { data := [1, 2, 3, 4, 5, 6, 7, 8] } =
      some (0x0807060504030201, { data := [] }) := by decide
  have hprob : consumeProbability .float64 exactFloat64 { data := [1, 2, 3, 4, 5, 6, 7, 8] } =
      some (exactFloat64.div (exactFloat64.ofUint 0x0807060504030201)
        (exactFloat64.ofUint 18446744073709551615), { data := [] }) := by
    unfold consumeProbability
    rw [if_neg (by decide), huint]
    rfl
  have hres : ∃ v, ConsumeFloat64 exactFloat64 { data := [1, 2, 3, 4, 5, 6, 7, 8, 9] } =
      some (v, { data := [] }) := by
    unfold ConsumeFloat64
    rw [hsplit, hbool]
    simp only [Option.some_bind, hprob, Option.map_some']
    exact ⟨_, rfl⟩
  obtain ⟨v, hv⟩ := hres
  exact ⟨v, { data := [] }, hv, by decide⟩

/-- C13, amended: every integer decode (any width, ranged over a valid range
or unranged), `ConsumeBool`, `ConsumeProbabilityFloat32`,
`ConsumeProbabilityFloat64`, `ConsumeFloat32` and `ConsumeFloat32InRange`
returns and removes at most 8 bytes in one call; `ConsumeFloat64` and
`ConsumeFloat64InRange` return and remove at most 9 bytes.  This holds for
every buffer and every arithmetic of the floating-point type, the range of a
floating-point decode being valid when `minVal > maxVal` is false. -/
theorem numeric_decodes_remove_few_bytes (fdp : FuzzedDataProvider) (A : FloatArith) :
    (∀ (T : IntegralType) (minVal maxVal : Int), T.InRange minVal → T.InRange maxVal →
        minVal ≤ maxVal →
        ∃ v fdp1, ConsumeXInRange T fdp minVal maxVal = some (v, fdp1) ∧
          RemainingBytes fdp ≤ RemainingBytes fdp1 + 8) ∧
    (∀ T : IntegralType, ∃ v fdp1, ConsumeX T fdp = some (v, fdp1) ∧
        RemainingBytes fdp ≤ RemainingBytes fdp1 + 8) ∧
    (∃ v fdp1, ConsumeBool fdp = some (v, fdp1) ∧
        RemainingBytes fdp ≤ RemainingBytes fdp1 + 8) ∧
    (∃ v fdp1, ConsumeProbabilityFloat32 A fdp = some (v, fdp1) ∧
        RemainingBytes fdp ≤ RemainingBytes fdp1 + 8) ∧
    (∃ v fdp1, ConsumeProbabilityFloat64 A fdp = some (v, fdp1) ∧
        RemainingBytes fdp ≤ RemainingBytes fdp1 + 8) ∧
    (A.lt A.maxFloat A.negMaxFloat = false →
      ∃ v fdp1, ConsumeFloat32 A fdp = some (v, fdp1) ∧
        RemainingBytes fdp ≤ RemainingBytes fdp1 + 8) ∧
    (∀ minVal maxVal : A.F, A.lt maxVal minVal = false →
      ∃ v fdp1, ConsumeFloat32InRange A fdp minVal maxVal = some (v, fdp1) ∧
        RemainingBytes fdp ≤ RemainingBytes fdp1 + 8) ∧
    (A.lt A.maxFloat A.negMaxFloat = false →
      ∃ v fdp1, ConsumeFloat64 A fdp = some (v, fdp1) ∧
        RemainingBytes fdp ≤ RemainingBytes fdp1 + 9) ∧
    (∀ minVal maxVal : A.F, A.lt maxVal minVal = false →
      ∃ v fdp1, ConsumeFloat64InRange A fdp minVal maxVal = some (v, fdp1) ∧
        RemainingBytes fdp ≤ RemainingBytes fdp1 + 9) := by
  have hint : ∀ (T : IntegralType) (minVal maxVal : Int), T.InRange minVal →
      T.InRange maxVal → minVal ≤ maxVal →
      ∃ v fdp1, consumeIntegralInRange T fdp minVal maxVal = some (v, fdp1) ∧
        RemainingBytes fdp ≤ RemainingBytes fdp1 + 8 := by
    intro T minVal maxVal hlo hhi hle
    obtain ⟨v, fdp1, h, hl⟩ := consumeIntegralInRange_removes T fdp minVal maxVal hlo hhi hle
    have hb : T.bits / 8 ≤ 8 := by
      rcases T.bits_cases with h | h | h | h <;> omega
    exact ⟨v, fdp1, h, by omega⟩
  have hf32 : ∀ minVal maxVal limMax : A.F, A.lt maxVal minVal = false →
      ∃ v fdp1, consumeFloatingPointInRange .float32 A fdp minVal maxVal limMax =
          some (v, fdp1) ∧
        RemainingBytes fdp ≤ RemainingBytes fdp1 + 8 := by
    intro minVal maxVal limMax hle
    obtain ⟨v, fdp1, h, hl⟩ :=
      consumeFloatingPointInRange_removes .float32 A fdp minVal maxVal limMax hle
    have hs : FloatingPointType.float32.sizeof = 4 := rfl
    exact ⟨v, fdp1, h, by omega⟩
  have hf64 : ∀ minVal maxVal limMax : A.F, A.lt maxVal minVal = false →
      ∃ v fdp1, consumeFloatingPointInRange .float64 A fdp minVal maxVal limMax =
          some (v, fdp1) ∧
        RemainingBytes fdp ≤ RemainingBytes fdp1 + 9 := by
    intro minVal maxVal limMax hle
    obtain ⟨v, fdp1, h, hl⟩ :=
      consumeFloatingPointInRange_removes .float64 A fdp minVal maxVal limMax hle
    have hs : FloatingPointType.float64.sizeof = 8 := rfl
    exact ⟨v, fdp1, h, by omega⟩
  refine ⟨?_, ?_, ?_, ?_, ?_, ?_, ?_, ?_, ?_⟩
  · intro T
    rw [ConsumeXInRange_eq]
    exact hint T
  · intro T
    rw [ConsumeX_eq]
    exact hint T _ _ T.inRange_minValue T.inRange_maxValue T.minValue_le_maxValue
  · obtain ⟨b, fdp1, h, hl⟩ := ConsumeBool_removes fdp
    exact ⟨b, fdp1, h, by omega⟩
  · obtain ⟨p, fdp1, h, hl⟩ := consumeProbability_removes .float32 A fdp
    have hs : FloatingPointType.float32.sizeof = 4 := rfl
    exact ⟨p, fdp1, h, by omega⟩
  · obtain ⟨p, fdp1, h, hl⟩ := consumeProbability_removes .float64 A fdp
    have hs : FloatingPointType.float64.sizeof = 8 := rfl
    exact ⟨p, fdp1, h, by omega⟩
  · exact fun h => hf32 _ _ _ h
  · exact fun minVal maxVal h => hf32 minVal maxVal _ h
  · exact fun h => hf64 _ _ _ h
  · exact fun minVal maxVal h => hf64 minVal maxVal _ h

theorem numeric_decodes_remove_few_bytes_witness :
    exactFloat64.lt exactFloat64.maxFloat exactFloat64.negMaxFloat = false ∧
      ∃ v fdp1,
        ConsumeFloat64 exactFloat64 { data := [1, 2, 3, 4, 5, 6, 7, 8, 9, 10] } =
          some (v, fdp1) ∧
        RemainingBytes { data := [1, 2, 3, 4, 5, 6, 7, 8, 9, 10] } ≤ RemainingBytes fdp1 + 9 :=
  ⟨(exactArith_branch (2 ^ 1024 - 2 ^ 971) maxFloat64_pos).1,
    (numeric_decodes_remove_few_bytes { data := [1, 2, 3, 4, 5, 6, 7, 8, 9, 10] }
      exactFloat64).2.2.2.2.2.2.2.1 (exactArith_branch (2 ^ 1024 - 2 ^ 971) maxFloat64_pos).1⟩

/-! ## The unranged floating-point decodes on an empty provider -/

theorem consumeProbability_nil (T : FloatingPointType) (A : FloatArith) :
    consumeProbability T A { data := [] } =
      some (A.div (A.ofUint 0)
        (A.ofUint (if T.sizeof ≤ sizeofUint32 then 4294967295 else 18446744073709551615)),
        { data := [] }) := by
  have h32 : ConsumeUint32 { data := [] } = some (0, { data := [] }) := by decide
  have h64 : ConsumeUint64 { data := [] } = some (0, { data := [] }) := by decide
  unfold consumeProbability
  cases T
  · rw [if_pos (by decide), if_pos (by decide), h32]
    rfl
  · rw [if_neg (by decide), if_neg (by decide), h64]
    rfl

/-- C14 fails on the code: with no input data left, `ConsumeFloat32()` and
`ConsumeFloat64()` return `-math.MaxFloat` of their type, the lower end of
the range, not a value near zero.  This holds for every arithmetic in which
the branch test of the unranged decode succeeds (`MaxFloat > 0`,
`-MaxFloat < 0`, `MaxFloat > -MaxFloat + MaxFloat`), zero divided by the
conversion of a positive integer is zero, the width `r` times zero is zero
and `-MaxFloat + 0` is `-MaxFloat`; all of these hold in IEEE 754. -/
theorem unranged_float_on_empty_is_lowest (A : FloatArith)
    (h0 : A.lt A.maxFloat A.negMaxFloat = false) (h1 : A.lt A.zero A.maxFloat = true)
    (h2 : A.lt A.negMaxFloat A.zero = true)
    (h3 : A.lt (A.add A.negMaxFloat A.maxFloat) A.maxFloat = true)
    (hdiv : ∀ c : Nat, 0 < c → A.div (A.ofUint 0) (A.ofUint c) = A.zero)
    (hmul : A.mul (A.sub (A.div A.maxFloat A.two) (A.div A.negMaxFloat A.two)) A.zero = A.zero)
    (hadd : A.add A.negMaxFloat A.zero = A.negMaxFloat) :
    ConsumeFloat32 A { data := [] } = some (A.negMaxFloat, { data := [] }) ∧
      ConsumeFloat64 A { data := [] } = some (A.negMaxFloat, { data := [] }) := by
  have key : ∀ T : FloatingPointType,
      consumeFloatingPointInRange T A { data := [] } A.negMaxFloat A.maxFloat A.maxFloat =
        some (A.negMaxFloat, { data := [] }) := by
    intro T
    rw [consumeFloatingPointInRange_split T A _ _ _ _ h0 h1 h2 h3, ConsumeBool_nil]
    simp only [Option.some_bind, consumeProbability_nil, Option.map_some',
      Bool.false_eq_true, if_false]
    rw [hdiv _ (by split <;> decide), hmul, hadd]
  exact ⟨key .float32, key .float64⟩

theorem unranged_float_on_empty_is_lowest_witness :
    exactFloat64.lt exactFloat64.maxFloat exactFloat64.negMaxFloat = false ∧
      exactFloat64.lt exactFloat64.zero exactFloat64.maxFloat = true ∧
      exactFloat64.lt exactFloat64.negMaxFloat exactFloat64.zero = true ∧
      exactFloat64.lt (exactFloat64.add exactFloat64.negMaxFloat exactFloat64.maxFloat)
        exactFloat64.maxFloat = true ∧
      (∀ c : Nat, 0 < c →
        exactFloat64.div (exactFloat64.ofUint 0) (exactFloat64.ofUint c) = exactFloat64.zero) ∧
      exactFloat64.mul
          (exactFloat64.sub (exactFloat64.div exactFloat64.maxFloat exactFloat64.two)
            (exactFloat64.div exactFloat64.negMaxFloat exactFloat64.two))
          exactFloat64.zero = exactFloat64.zero ∧
      exactFloat64.add exactFloat64.negMaxFloat exactFloat64.zero = exactFloat64.negMaxFloat ∧
      ConsumeFloat64 exactFloat64 { data := [] } =
        some (exactFloat64.negMaxFloat, { data := [] }) ∧
      exactFloat64.negMaxFloat = -(2 ^ 1024 - 2 ^ 971 : Rat) :=
  ⟨(exactArith_branch _ maxFloat64_pos).1, (exactArith_branch _ maxFloat64_pos).2.1,
    (exactArith_branch _ maxFloat64_pos).2.2.1, (exactArith_branch _ maxFloat64_pos).2.2.2,
    fun c _ => by simp [exactFloat64, exactArith],
    by simp [exactFloat64, exactArith], by simp [exactFloat64, exactArith],
    (unranged_float_on_empty_is_lowest exactFloat64
      (exactArith_branch _ maxFloat64_pos).1 (exactArith_branch _ maxFloat64_pos).2.1
      (exactArith_branch _ maxFloat64_pos).2.2.1 (exactArith_branch _ maxFloat64_pos).2.2.2
      (fun c _ => by simp [exactFloat64, exactArith])
      (by simp [exactFloat64, exactArith]) (by simp [exactFloat64, exactArith])).2,
    rfl⟩

/-! ## Escape-free strings and additivity of byte extraction -/

/-- C21: on escape-free input the escaped-length consumer is fixed-length
extraction: for every `maxLength >= 0` and every buffer whose first
`min(maxLength, RemainingBytes())` bytes contain no escape marker,
`ConsumeRandomLengthString(maxLength)` returns the same string and leaves
the same remaining data as `ConsumeBytesAsString(maxLength)`. -/
theorem escape_free_is_fixed_length (fdp : FuzzedDataProvider) (maxLength : Int)
    (hmax : 0 ≤ maxLength)
    (hfree : ∀ b ∈ fdp.data.take (min maxLength.toNat (RemainingBytes fdp)), b ≠ backslash) :
    ∃ res fdp1, ConsumeRandomLengthString fdp maxLength = some (res, fdp1) ∧
      ConsumeBytesAsString fdp maxLength = some (res, fdp1) := by
  obtain ⟨d⟩ := fdp
  simp only [RemainingBytes] at hfree
  refine ⟨_, _, ?_, ConsumeBytesAsString_eq _ maxLength hmax⟩
  unfold ConsumeRandomLengthString
  simp only []
  have hsplit : d = d.take (min maxLength.toNat d.length) ++
      d.drop (min maxLength.toNat d.length) := (List.take_append_drop _ _).symm
  have hslen : (d.take (min maxLength.toNat d.length)).length = min maxLength.toNat d.length := by
    rw [List.length_take]; omega
  have hk : maxLength.toNat = (d.take (min maxLength.toNat d.length)).length +
      (maxLength.toNat - min maxLength.toNat d.length) := by
    rw [hslen]; omega
  have hrun := randomLengthLoop_plain_run (d.drop (min maxLength.toNat d.length))
    (d.take (min maxLength.toNat d.length))
    (maxLength.toNat - min maxLength.toNat d.length) [] hfree
  rw [← hsplit, ← hk, List.nil_append] at hrun
  rw [hrun]
  by_cases hle : maxLength.toNat ≤ d.length
  · have hz : maxLength.toNat - min maxLength.toNat d.length = 0 := by omega
    rw [hz]
    rfl
  · have hmin : min maxLength.toNat d.length = d.length := by omega
    rw [hmin, List.drop_length, randomLengthLoop_nil]

theorem escape_free_is_fixed_length_witness :
    (0 : Int) ≤ 2 ∧
      (∀ b ∈ ([0x66, 0x6f, 0x5c, 0x6f] : List Byte).take
          (min (2 : Int).toNat (RemainingBytes { data := [0x66, 0x6f, 0x5c, 0x6f] })),
        b ≠ backslash) ∧
      ∃ res fdp1,
        ConsumeRandomLengthString { data := [0x66, 0x6f, 0x5c, 0x6f] } 2 = some (res, fdp1) ∧
        ConsumeBytesAsString { data := [0x66, 0x6f, 0x5c, 0x6f] } 2 = some (res, fdp1) :=
  ⟨by decide, by simp [backslash, RemainingBytes],
    escape_free_is_fixed_length { data := [0x66, 0x6f, 0x5c, 0x6f] } 2 (by decide)
      (by simp [backslash, RemainingBytes])⟩

/-- Two successive extractions of `a` and `b` bytes amount to one extraction
whose argument is the exact sum `a + b`. -/
theorem ConsumeBytes_add (fdp : FuzzedDataProvider) (a b : Int) (ha : 0 ≤ a)
    (hb : 0 ≤ b) :
    ∃ res1 fdp1 res2 fdp2,
      ConsumeBytes fdp a = some (res1, fdp1) ∧
      ConsumeBytes fdp1 b = some (res2, fdp2) ∧
      ConsumeBytes fdp (a + b) = some (res1 ++ res2, fdp2) := by
  obtain ⟨d⟩ := fdp
  obtain ⟨m, rfl⟩ := Int.eq_ofNat_of_zero_le ha
  obtain ⟨n, rfl⟩ := Int.eq_ofNat_of_zero_le hb
  refine ⟨_, _, _, _, ConsumeBytes_eq _ _ ha, ConsumeBytes_eq _ _ hb, ?_⟩
  rw [ConsumeBytes_eq _ _ (by omega)]
  have hsum : ((m : Int) + (n : Int)).toNat = m + n := by omega
  simp only [Int.toNat_ofNat, hsum, List.length_drop, List.drop_drop]
  have e1 : min m d.length + min n (d.length - min m d.length) = min (m + n) d.length := by
    omega
  rw [e1]
  congr 2
  rw [← e1, List.take_add]

theorem wrapInt_of_inRange (is64 : Bool) (x : Int) (h0 : 0 ≤ x)
    (hx : x ≤ (IntegralType.int is64).maxValue) : wrapInt is64 x = x := by
  unfold wrapInt IntegralType.ofUint64 toUint64
  unfold IntegralType.maxValue at hx
  cases is64 <;>
    simp [IntegralType.bits, IntegralType.signed] at hx ⊢ <;>
    (try split) <;> omega

/-- C22, as stated, fails: the argument of `ConsumeBytes` is a Go `int` and
the sum `a + b` wraps around.  On a 64-bit platform with `a = b = 2^62` the
two separate calls return, but the sum is `math.MinInt64`, and
`ConsumeBytes` of a negative count panics at the slice `fdp.data[:n]`. -/
theorem consume_bytes_sum_wraps :
    ¬ ∃ res1 fdp1 res2 fdp2,
      ConsumeBytes { data := [0xba, 0xad] } 4611686018427387904 = some (res1, fdp1) ∧
      ConsumeBytes fdp1 4611686018427387904 = some (res2, fdp2) ∧
      ConsumeBytes { data := [0xba, 0xad] }
          (wrapInt true (4611686018427387904 + 4611686018427387904)) =
        some (res1 ++ res2, fdp2) := by
  rintro ⟨res1, fdp1, res2, fdp2, _, _, h3⟩
  have hnone : ConsumeBytes { data := [0xba, 0xad] }
      (wrapInt true (4611686018427387904 + 4611686018427387904)) = none := by decide
  rw [hnone] at h3
  exact absurd h3 (by simp)

/-- C22, amended: byte extraction is additive when the sum does not
overflow: for every `a >= 0`, `b >= 0` with `a + b <= math.MaxInt` and every
buffer, the result of `ConsumeBytes(a)` followed by the result of
`ConsumeBytes(b)` is the result of a single `ConsumeBytes(a + b)` on the same
initial buffer, and both sequences of calls leave the same remaining data. -/
theorem consume_bytes_additive_without_overflow (is64 : Bool) (fdp : FuzzedDataProvider)
    (a b : Int) (ha : 0 ≤ a) (hb : 0 ≤ b)
    (hsum : a + b ≤ (IntegralType.int is64).maxValue) :
    ∃ res1 fdp1 res2 fdp2,
      ConsumeBytes fdp a = some (res1, fdp1) ∧
      ConsumeBytes fdp1 b = some (res2, fdp2) ∧
      ConsumeBytes fdp (wrapInt is64 (a + b)) = some (res1 ++ res2, fdp2) := by
  rw [wrapInt_of_inRange is64 (a + b) (by omega) hsum]
  exact ConsumeBytes_add fdp a b ha hb

theorem consume_bytes_additive_without_overflow_witness :
    (0 : Int) ≤ 3 ∧ (0 : Int) ≤ 2 ∧ (3 : Int) + 2 ≤ (IntegralType.int true).maxValue ∧
      ∃ res1 fdp1 res2 fdp2,
        ConsumeBytes { data := [0xba, 0xad, 0xf0, 0x0d] } 3 = some (res1, fdp1) ∧
        ConsumeBytes fdp1 2 = some (res2, fdp2) ∧
        ConsumeBytes { data := [0xba, 0xad, 0xf0, 0x0d] } (wrapInt true (3 + 2)) =
          some (res1 ++ res2, fdp2) :=
  ⟨by decide, by decide, by decide,
    consume_bytes_additive_without_overflow true { data := [0xba, 0xad, 0xf0, 0x0d] } 3 2
      (by decide) (by decide) (by decide)⟩

/-! ## The range of the floating-point range decode -/

theorem ConsumeUint64_all_ones :
    ConsumeUint64 { data := [0xff, 0xff, 0xff, 0xff, 0xff, 0xff, 0xff, 0xff] } =
      some (18446744073709551615, { data := [] }) := by decide

/-- C12 fails on the code: `ConsumeFloat64InRange(minVal, maxVal)` can return
a value above `maxVal`.  On eight `0xff` bytes the probability draw is
`float64(MaxUint64) / float64(MaxUint64)`, which is 1, so on the direct
branch the result is `minVal + (maxVal - minVal)`, each operation rounded.
For every arithmetic in which the range is valid, the direct branch is
taken, that quotient is a `one` with `r * one = r`, and the rounded
`minVal + (maxVal - minVal)` is above `maxVal`, the decode returns a value
`v` with `maxVal < v`.  In IEEE 754 binary64 all of this holds at
`minVal = -0.1`, `maxVal = 0.3`, where the result is
`0.30000000000000004`. -/
theorem float64_range_decode_exceeds_max (A : FloatArith) (minVal maxVal one : A.F)
    (hvalid : A.lt maxVal minVal = false)
    (hdirect : A.lt (A.add minVal A.maxFloat) maxVal = false)
    (hone : A.div (A.ofUint 18446744073709551615) (A.ofUint 18446744073709551615) = one)
    (hmul : A.mul (A.sub maxVal minVal) one = A.sub maxVal minVal)
    (hexceed : A.lt maxVal (A.add minVal (A.sub maxVal minVal)) = true) :
    ∃ v, ConsumeFloat64InRange A { data := [0xff, 0xff, 0xff, 0xff, 0xff, 0xff, 0xff, 0xff] }
        minVal maxVal = some (v, { data := [] }) ∧
      A.lt maxVal v = true := by
  refine ⟨A.add minVal (A.sub maxVal minVal), ?_, hexceed⟩
  have hprob : consumeProbability .float64 A
      { data := [0xff, 0xff, 0xff, 0xff, 0xff, 0xff, 0xff, 0xff] } =
        some (one, { data := [] }) := by
    unfold consumeProbability
    rw [if_neg (by decide), ConsumeUint64_all_ones]
    simp only [Option.map_some']
    rw [show (18446744073709551615 : Int).toNat = 18446744073709551615 from rfl, hone]
  unfold ConsumeFloat64InRange consumeFloatingPointInRange
  rw [hvalid, hdirect]
  simp only [Bool.false_eq_true, if_false, and_false, hprob, Option.map_some', hmul]

theorem float64_range_decode_exceeds_max_witness :
    binary64Arith.lt (roundBinary53 3 10) (roundBinary53 (-1) 10) = false ∧
      binary64Arith.lt (binary64Arith.add (roundBinary53 (-1) 10) binary64Arith.maxFloat)
        (roundBinary53 3 10) = false ∧
      (binary64Arith.div (binary64Arith.ofUint 18446744073709551615)
        (binary64Arith.ofUint 18446744073709551615) : Rat) = 1 ∧
      (binary64Arith.mul (binary64Arith.sub (roundBinary53 3 10) (roundBinary53 (-1) 10))
        (1 : Rat) : Rat) =
          binary64Arith.sub (roundBinary53 3 10) (roundBinary53 (-1) 10) ∧
      binary64Arith.lt (roundBinary53 3 10)
        (binary64Arith.add (roundBinary53 (-1) 10)
          (binary64Arith.sub (roundBinary53 3 10) (roundBinary53 (-1) 10))) = true ∧
      ∃ v, ConsumeFloat64InRange binary64Arith
          { data := [0xff, 0xff, 0xff, 0xff, 0xff, 0xff, 0xff, 0xff] }
          (roundBinary53 (-1) 10) (roundBinary53 3 10) = some (v, { data := [] }) ∧
        binary64Arith.lt (roundBinary53 3 10) v = true :=
  ⟨by decide!, by decide!, by decide!, by decide!, by decide!,
    float64_range_decode_exceeds_max binary64Arith (roundBinary53 (-1) 10)
      (roundBinary53 3 10) (1 : Rat) (by decide!) (by decide!) (by decide!) (by decide!)
      (by decide!)⟩

/-- The values at the failing input: `-0.1` and `0.3` as `float64`, and the
value the decode returns, one unit in the last place above `maxVal`. -/
theorem float64_range_decode_values :
    roundBinary53 (-1) 10 = mkRat (-3602879701896397) (2 ^ 55) ∧
      roundBinary53 3 10 = mkRat 5404319552844595 (2 ^ 54) ∧
      (ConsumeFloat64InRange binary64Arith
          { data := [0xff, 0xff, 0xff, 0xff, 0xff, 0xff, 0xff, 0xff] }
          (roundBinary53 (-1) 10) (roundBinary53 3 10) : Option (Rat × FuzzedDataProvider)) =
        some (mkRat 5404319552844596 (2 ^ 54), { data := [] }) ∧
      roundBinary53 30000000000000004 100000000000000000 = mkRat 5404319552844596 (2 ^ 54) := by
  refine ⟨by decide!, by decide!, by decide!, by decide!⟩

/-- The arithmetic `binary64Arith` reproduces the values that
`TestConsumeFloat64InRange` expects on the sample input: `93.87413226252205`
and then `-0.9` for the range `[-0.9, 100.3]`, and
`1.6835455230323025e+308` for the range `[0, math.MaxFloat64]`. -/
theorem binary64Arith_matches_test :
    (ConsumeFloat64InRange binary64Arith
        { data := [0xba, 0xad, 0xf0, 0x0d, 0xde, 0xad, 0xbe, 0xef] }
        (roundBinary53 (-9) 10) (roundBinary53 1003 10) : Option (Rat × FuzzedDataProvider)) =
      some (roundBinary53 9387413226252205 100000000000000, { data := [] }) ∧
    (ConsumeFloat64InRange binary64Arith { data := [] }
        (roundBinary53 (-9) 10) (roundBinary53 1003 10) : Option (Rat × FuzzedDataProvider)) =
      some (roundBinary53 (-9) 10, { data := [] }) ∧
    (ConsumeFloat64InRange binary64Arith
        { data := [0xba, 0xad, 0xf0, 0x0d, 0xde, 0xad, 0xbe, 0xef] }
        (binary64Arith.add binary64Arith.negMaxFloat binary64Arith.maxFloat)
        binary64Arith.maxFloat : Option (Rat × FuzzedDataProvider)) =
      some (roundBinary53 (16835455230323025 * 10 ^ 292) 1, { data := [] }) := by
  refine ⟨by decide!, by decide!, by decide!⟩

end Fuzz
